import Mathlib

/-!
Verification of `PackFrameworkerScript.py` (GamersModpacks/GamersMarinaded).

The script is sequential file-system orchestration: it merges tiered
directory overlays into per-variant output trees, processes a removal
list, stamps a version placeholder into text files, and promotes a
"beta" tree to a "release" tree.  We embed the file system as a finite
association of absolute paths (segment lists) to nodes (text file or
directory) and translate each Python operation into a function on that
model.  External subprocess invocations (`git`, `packwiz`) are
represented by outcome oracles; environmental deletion failures
(e.g. permissions) by a failure oracle on paths.
-/

namespace PackFrameworker

/-- A filesystem path: the list of name segments from the filesystem root. -/
abbrev Path := List String

/-- A filesystem node: a regular file with text content, or a directory. -/
inductive Node where
  | file (content : String)
  | dir
deriving DecidableEq, Repr

/-- A filesystem: a finite association of paths to nodes (first match wins). -/
abbrev FS := List (Path × Node)

/-- Boolean list-prefix test: `pfx p q = true` iff `p` is an initial segment of `q`. -/
def pfx {α : Type} [DecidableEq α] : List α → List α → Bool
  | [], _ => true
  | _ :: _, [] => false
  | a :: x, b :: y => a = b && pfx x y

/-- Path lookup in the association list (first match wins). -/
def lookupFS : FS → Path → Option Node
  | [], _ => none
  | e :: rest, p => if e.1 = p then some e.2 else lookupFS rest p

/-- `os.path.exists`: some node is recorded at the path. -/
def existsFS (fs : FS) (p : Path) : Bool := (lookupFS fs p).isSome

/-- `os.path.isdir`: the node at the path is a directory. -/
def isDirFS (fs : FS) (p : Path) : Bool := lookupFS fs p = some Node.dir

/-- `os.path.isfile`: the node at the path is a regular file. -/
def isFileFS (fs : FS) (p : Path) : Bool :=
  match lookupFS fs p with
  | some (Node.file _) => true
  | _ => false

/-- `os.remove`: drop the single entry recorded at the path. -/
def eraseKey (fs : FS) (p : Path) : FS := fs.filter (fun e => decide (e.1 ≠ p))

/-- `shutil.rmtree`: drop the path and everything below it. -/
def eraseTree (fs : FS) (p : Path) : FS := fs.filter (fun e => !(pfx p e.1))

/-- Record a node at a path, replacing whatever was there. -/
def setNode (fs : FS) (p : Path) (n : Node) : FS := (p, n) :: eraseKey fs p

/-- The keys (paths) of the association list. -/
def keys (fs : FS) : List Path := fs.map Prod.fst

/-- The association list records each path at most once. -/
def KeysNodup (fs : FS) : Prop := (keys fs).Nodup

instance : DecidablePred KeysNodup := fun fs =>
  inferInstanceAs (Decidable (keys fs).Nodup)

/-- A proper directory tree: every proper initial segment of every
recorded path is itself recorded as a directory. -/
def WellFormedFS (fs : FS) : Prop :=
  ∀ e ∈ fs, ∀ i, i < e.1.length → lookupFS fs (e.1.take i) = some Node.dir

instance : DecidablePred WellFormedFS := fun fs =>
  inferInstanceAs (Decidable (∀ e ∈ fs, ∀ i, i < e.1.length →
    lookupFS fs (e.1.take i) = some Node.dir))

/-- The ordered list of initial segments of a path, shortest first. -/
def initialSegs (p : Path) : List Path := (List.range (p.length + 1)).map p.take

/-- One step of `os.makedirs`: create a directory at `q` unless something exists there. -/
def addDirIfAbsent (fs : FS) (q : Path) : FS :=
  match lookupFS fs q with
  | none => (q, Node.dir) :: fs
  | some _ => fs

/-- `os.makedirs(p, exist_ok=True)`: create a directory at every missing
initial segment of `p`, shortest first. -/
def makedirs (fs : FS) (p : Path) : FS := (initialSegs p).foldl addDirIfAbsent fs

/-- `shutil.copy2`: copy the file at `s` over whatever is at `d`. -/
def copy2 (fs : FS) (s d : Path) : FS :=
  match lookupFS fs s with
  | some (Node.file c) => setNode fs d (Node.file c)
  | _ => fs

/-- `shutil.copytree(s, d, dirs_exist_ok=True)`: create `d`, then re-root
every entry of the subtree at `s` below `d`, overwriting on collision and
keeping destination entries that have no counterpart in the source. -/
def copytree (fs : FS) (s d : Path) : FS :=
  (fs.filter (fun e => pfx s e.1)).foldl
    (fun acc e => setNode acc (d ++ e.1.drop s.length) e.2) (makedirs fs d)

/-- The names of the immediate children of `p` recorded in `fs` (`os.listdir`). -/
def children (fs : FS) (p : Path) : List String :=
  fs.filterMap (fun e =>
    match e.1.drop p.length with
    | [n] => if pfx p e.1 then some n else none
    | _ => none)

/-- The loop body of `copy_directory_contents`: copy one directory entry,
recursively for a directory (`shutil.copytree`), by plain overwrite for a
file (`shutil.copy2`). -/
def mergeStep (src dest : Path) (acc : FS) (item : String) : FS :=
  if isDirFS acc (src ++ [item]) then copytree acc (src ++ [item]) (dest ++ [item])
  else copy2 acc (src ++ [item]) (dest ++ [item])

/-- `copy_directory_contents(src, dest)` from the script: no-op when the
source does not exist, else ensure `dest` exists and copy each child of
`src` (recursively for directories, overwriting files on collision). -/
def copy_directory_contents (fs : FS) (src dest : Path) : FS :=
  if lookupFS fs src = none then fs
  else
    let fs1 := makedirs fs dest
    (children fs1 src).foldl (mergeStep src dest) fs1

/-- The node that the merge copies to relative destination position `r`,
read off the source subtree: a child entry directly for a one-segment
position, a descendant of a directory child for a deeper position. -/
def copiedVal (fs : FS) (s : Path) (r : Path) : Option Node :=
  match r with
  | [] => none
  | a :: r' =>
    if r' = [] then lookupFS fs (s ++ [a])
    else if isDirFS fs (s ++ [a]) then lookupFS fs (s ++ [a] ++ r') else none

/-- Intended value of `lookupFS (copy_directory_contents fs s d) p`:
unchanged when the source is absent; under the destination, the copied
source value when one exists, the old value otherwise; a directory at
every formerly-absent initial segment of the destination; the old value
everywhere else. -/
def mergeLookupSpec (fs : FS) (s d p : Path) : Option Node :=
  if lookupFS fs s = none then lookupFS fs p
  else if pfx d p = true ∧ p ≠ d then
    match copiedVal fs s (p.drop d.length) with
    | some n => some n
    | none => lookupFS fs p
  else if pfx p d = true ∧ lookupFS fs p = none then some Node.dir
  else lookupFS fs p

/-- Two filesystems are observationally equal when every path lookup agrees. -/
def FSEquiv (fs1 fs2 : FS) : Prop := ∀ p, lookupFS fs1 p = lookupFS fs2 p

/-! ### Removal-list processing (`build_modpack`, script lines 224-240) -/

/-- Whitespace in the sense of Python `str.strip()`. -/
def isSpaceChar (c : Char) : Bool :=
  c = ' ' || c = '\t' || c = '\n' || c = '\r' || c = '\x0b' || c = '\x0c'

/-- Python `str.strip()` on a character list: drop whitespace at both ends. -/
def stripChars (s : List Char) : List Char :=
  ((s.dropWhile isSpaceChar).reverse.dropWhile isSpaceChar).reverse

/-- Python `str.strip()`. -/
def stripStr (s : String) : String := String.mk (stripChars s.data)

/-- Split a character list at every occurrence of a separator character. -/
def splitOnChar (sep : Char) : List Char → List (List Char)
  | [] => [[]]
  | c :: rest =>
    if c = sep then [] :: splitOnChar sep rest
    else
      match splitOnChar sep rest with
      | [] => [[c]]
      | p :: ps => (c :: p) :: ps

/-- The lines handed to the removal loop by `f.readlines()`: split the
file content on newlines (the loop strips each line itself, so the
trailing-newline difference between `readlines` and a plain split is
immaterial). -/
def linesOf (content : String) : List String :=
  (splitOnChar '\n' content.data).map String.mk

/-- Is the line an absolute path (leading separator)? -/
def isAbsolutePath (line : String) : Bool := pfx ['/'] line.data

/-- Resolve one path segment against a segment stack the way the
operating system resolves `.` and `..` in a path handed to `os.remove`
or `shutil.rmtree`. -/
def applySeg (acc : Path) (seg : String) : Path :=
  if seg = "" ∨ seg = "." then acc
  else if seg = ".." then acc.dropLast
  else acc ++ [seg]

/-- `os.path.join(base, line)` as the operating system then resolves it:
an absolute `line` discards `base` entirely; `.` and `..` segments are
resolved lexically against what precedes them. -/
def resolvePath (base : Path) (line : String) : Path :=
  ((splitOnChar '/' line.data).map String.mk).foldl applySeg
    (if isAbsolutePath line = true then [] else base)

/-- The removal loop of `build_modpack`: for each stripped nonempty line,
delete the file (`os.remove`) or directory tree (`shutil.rmtree`) at the
joined path when present.  `fail` is an environment oracle (permissions
and the like): a failing deletion raises before changing anything, and
the flag `false` reports that the loop was abandoned there. -/
def processLines (fail : Path → Bool) (out : Path) (fs : FS) : List String → FS × Bool
  | [] => (fs, true)
  | line :: rest =>
    if stripStr line = "" then processLines fail out fs rest
    else if isFileFS fs (resolvePath out (stripStr line)) = true then
      (if fail (resolvePath out (stripStr line)) = true then (fs, false)
       else processLines fail out (eraseKey fs (resolvePath out (stripStr line))) rest)
    else if isDirFS fs (resolvePath out (stripStr line)) = true then
      (if fail (resolvePath out (stripStr line)) = true then (fs, false)
       else processLines fail out (eraseTree fs (resolvePath out (stripStr line))) rest)
    else processLines fail out fs rest

/-- Removal-list processing of `build_modpack` (script lines 224-240):
when `filesToRemove.txt` is a file at the output root, run the removal
loop and then `os.remove` the list file itself, all inside one `try`
whose `except` reports the error and continues; the flag is `false`
exactly when the `except` branch ran, and the filesystem is the state
reached when the exception was raised. -/
def removal_phase (fail : Path → Bool) (fs : FS) (out : Path) : FS × Bool :=
  match lookupFS fs (out ++ ["filesToRemove.txt"]) with
  | some (Node.file content) =>
    match processLines fail out fs (linesOf content) with
    | (fs1, true) =>
      if isFileFS fs1 (out ++ ["filesToRemove.txt"]) = true then
        (if fail (out ++ ["filesToRemove.txt"]) = true then (fs1, false)
         else (eraseKey fs1 (out ++ ["filesToRemove.txt"]), true))
      else (fs1, false)
    | (fs1, false) => (fs1, false)
  | _ => (fs, true)

/-! ### Version stamping (`replace_in_file`, script lines 164-181) -/

/-- Python `str.replace` on character lists: replace each non-overlapping
occurrence of `old` left to right; an empty `old` inserts `new` at every
position, exactly as in Python. -/
def replaceChars (old new : List Char) (s : List Char) : List Char :=
  match s with
  | [] => if old = [] then new else []
  | c :: rest =>
    if hold : old = [] then new ++ c :: replaceChars old new rest
    else if pfx old (c :: rest) = true then
      new ++ replaceChars old new ((c :: rest).drop old.length)
    else c :: replaceChars old new rest
termination_by s.length
decreasing_by
  all_goals
    first
    | (simp only [List.length_cons]; omega)
    | (have h2 : 0 < old.length := List.length_pos.mpr hold
       simp only [List.length_drop, List.length_cons]
       omega)
    | simp

/-- Python `str.replace`. -/
def replaceStr (old new s : String) : String :=
  String.mk (replaceChars old.data new.data s.data)

/-- The greedy left-to-right decomposition of `s` at occurrences of
`old`: the pieces between consecutive (non-overlapping) matches. -/
def splitOnL (old : List Char) (s : List Char) : List (List Char) :=
  match s with
  | [] => [[]]
  | c :: rest =>
    if hold : old = [] then [c :: rest]
    else if pfx old (c :: rest) = true then
      [] :: splitOnL old ((c :: rest).drop old.length)
    else
      match splitOnL old rest with
      | [] => [[c]]
      | p :: ps => (c :: p) :: ps
termination_by s.length
decreasing_by
  all_goals
    first
    | (simp only [List.length_cons]; omega)
    | (have h2 : 0 < old.length := List.length_pos.mpr hold
       simp only [List.length_drop, List.length_cons]
       omega)
    | simp

/-- Join pieces back with a separator between consecutive pieces. -/
def joinWith (sep : List Char) : List (List Char) → List Char
  | [] => []
  | [p] => p
  | p :: ps => p ++ sep ++ joinWith sep ps

/-- Does `old` occur contiguously inside `s`? -/
def occursIn (old : List Char) : List Char → Bool
  | [] => pfx old []
  | c :: rest => pfx old (c :: rest) || occursIn old rest

/-- `replace_in_file(file_path, old_text, new_text)` from the script:
missing path → no-op; a directory (or any other I/O failure) → caught,
reported, state unchanged; a file → its content rewritten with every
occurrence of `old_text` replaced by `new_text`. -/
def replace_in_file (fs : FS) (p : Path) (old new : String) : FS :=
  match lookupFS fs p with
  | some (Node.file c) => setNode fs p (Node.file (replaceStr old new c))
  | _ => fs

/-! ### Build orchestration (`build_modpack`, script lines 184-259) -/

/-- Configuration record `{mcversion, modloader}` from `config.json`. -/
structure Config where
  mcversion : String
  modloader : String

/-- `beta/<modloader>/<mcversion>/<modpacktype>` under the script directory. -/
def output_path (sd : Path) (cfg : Config) (t : String) : Path :=
  sd ++ ["beta", cfg.modloader, cfg.mcversion, t]

/-- `framework/packwiz/<modloader>/<mcversion>/<modpacktype>`. -/
def framework_src (sd : Path) (cfg : Config) (t : String) : Path :=
  sd ++ ["framework", "packwiz", cfg.modloader, cfg.mcversion, t]

/-- `mod/<modloader>/all/server`. -/
def server_src (sd : Path) (cfg : Config) : Path :=
  sd ++ ["mod", cfg.modloader, "all", "server"]

/-- `mod/<modloader>/all/nano`. -/
def nano_src (sd : Path) (cfg : Config) : Path :=
  sd ++ ["mod", cfg.modloader, "all", "nano"]

/-- `mod/<modloader>/all/giga`. -/
def giga_src (sd : Path) (cfg : Config) : Path :=
  sd ++ ["mod", cfg.modloader, "all", "giga"]

/-- The clean-and-merge phase of `build_modpack` (script lines 198-221):
wipe the output tree, recreate it, then merge the tiers in order —
framework base, then server-common, then (for nano and giga) nano, then
(for giga only) giga. -/
def build_modpack_merges (fs : FS) (sd : Path) (cfg : Config) (t : String) : FS :=
  if t = "nano" ∨ t = "giga" then
    (if t = "giga" then
      copy_directory_contents
        (copy_directory_contents
          (copy_directory_contents
            (copy_directory_contents
              (makedirs
                (if existsFS fs (output_path sd cfg t) = true
                 then eraseTree fs (output_path sd cfg t) else fs)
                (output_path sd cfg t))
              (framework_src sd cfg t) (output_path sd cfg t))
            (server_src sd cfg) (output_path sd cfg t))
          (nano_src sd cfg) (output_path sd cfg t))
        (giga_src sd cfg) (output_path sd cfg t)
     else
      copy_directory_contents
        (copy_directory_contents
          (copy_directory_contents
            (makedirs
              (if existsFS fs (output_path sd cfg t) = true
               then eraseTree fs (output_path sd cfg t) else fs)
              (output_path sd cfg t))
            (framework_src sd cfg t) (output_path sd cfg t))
          (server_src sd cfg) (output_path sd cfg t))
        (nano_src sd cfg) (output_path sd cfg t))
  else
    copy_directory_contents
      (copy_directory_contents
        (makedirs
          (if existsFS fs (output_path sd cfg t) = true
           then eraseTree fs (output_path sd cfg t) else fs)
          (output_path sd cfg t))
        (framework_src sd cfg t) (output_path sd cfg t))
      (server_src sd cfg) (output_path sd cfg t)

/-- The version-stamping phase of `build_modpack` (script lines 242-250). -/
def stamp_phase (fs : FS) (out : Path) (t : String) (v : String) : FS :=
  if t = "nano" ∨ t = "giga" then
    replace_in_file
      (replace_in_file (replace_in_file fs (out ++ ["pack.toml"]) "noVersion" v)
        (out ++ ["config", "bcc-common.toml"]) "noVersion" v)
      (out ++ ["config", "fancymenu", "custom_locals", "mod", "en_us.local"]) "noVersion" v
  else
    replace_in_file (replace_in_file fs (out ++ ["pack.toml"]) "noVersion" v)
      (out ++ ["config", "bcc-common.toml"]) "noVersion" v

/-! ### Repository sync (`update_pack_framework`, script lines 117-139) -/

/-- External `git` commands the script can launch. -/
inductive GitCmd where
  | pull (cwd : Path)
  | clone (url : String) (target : String) (cwd : Path)
deriving DecidableEq, Repr

/-- Outcome of `subprocess.run(..., check=True)`: normal exit, a nonzero
exit (raises `subprocess.CalledProcessError`), or a failure to launch the
process at all (raises an `OSError`, e.g. the binary is not in PATH). -/
inductive RunOutcome where
  | success
  | exitFailure
  | launchFailure
deriving DecidableEq, Repr

/-- `update_pack_framework()`: pull inside `framework` when that folder
exists, otherwise clone from the fixed GitHub URL.  Only
`subprocess.CalledProcessError` is caught (reported, swallowed), so a
launch failure propagates to the caller.  Returns the commands launched
and `true` iff the call returns normally. -/
def update_pack_framework (git : GitCmd → RunOutcome) (fs : FS) (sd : Path) :
    List GitCmd × Bool :=
  if existsFS fs (sd ++ ["framework"]) = true then
    match git (GitCmd.pull (sd ++ ["framework"])) with
    | RunOutcome.launchFailure => ([GitCmd.pull (sd ++ ["framework"])], false)
    | _ => ([GitCmd.pull (sd ++ ["framework"])], true)
  else
    match git (GitCmd.clone "https://github.com/Den4enko/PackFramework" "framework" sd) with
    | RunOutcome.launchFailure =>
      ([GitCmd.clone "https://github.com/Den4enko/PackFramework" "framework" sd], false)
    | _ => ([GitCmd.clone "https://github.com/Den4enko/PackFramework" "framework" sd], true)

/-! ### Release promotion (`copy_beta_to_release`, script lines 262-290) -/

/-- `copy_beta_to_release()`: delete any previous release tree, recreate
it empty, copy every child of `beta` into it, then delete
`lastVersion.txt` from the release if it was copied over.
`os.listdir(beta)` raises when `beta` is not a directory and nothing
catches that: the flag is `false` in that case and the filesystem is the
state already reached (release wiped and recreated empty). -/
def copy_beta_to_release (fs : FS) (sd : Path) : FS × Bool :=
  if isDirFS (makedirs
      (if existsFS fs (sd ++ ["release"]) = true
       then eraseTree fs (sd ++ ["release"]) else fs)
      (sd ++ ["release"])) (sd ++ ["beta"]) = true then
    (if isFileFS
        ((children (makedirs
            (if existsFS fs (sd ++ ["release"]) = true
             then eraseTree fs (sd ++ ["release"]) else fs)
            (sd ++ ["release"])) (sd ++ ["beta"])).foldl
          (mergeStep (sd ++ ["beta"]) (sd ++ ["release"]))
          (makedirs
            (if existsFS fs (sd ++ ["release"]) = true
             then eraseTree fs (sd ++ ["release"]) else fs)
            (sd ++ ["release"])))
        (sd ++ ["release", "lastVersion.txt"]) = true then
      (eraseKey
        ((children (makedirs
            (if existsFS fs (sd ++ ["release"]) = true
             then eraseTree fs (sd ++ ["release"]) else fs)
            (sd ++ ["release"])) (sd ++ ["beta"])).foldl
          (mergeStep (sd ++ ["beta"]) (sd ++ ["release"]))
          (makedirs
            (if existsFS fs (sd ++ ["release"]) = true
             then eraseTree fs (sd ++ ["release"]) else fs)
            (sd ++ ["release"])))
        (sd ++ ["release", "lastVersion.txt"]), true)
     else
      ((children (makedirs
          (if existsFS fs (sd ++ ["release"]) = true
           then eraseTree fs (sd ++ ["release"]) else fs)
          (sd ++ ["release"])) (sd ++ ["beta"])).foldl
        (mergeStep (sd ++ ["beta"]) (sd ++ ["release"]))
        (makedirs
          (if existsFS fs (sd ++ ["release"]) = true
           then eraseTree fs (sd ++ ["release"]) else fs)
          (sd ++ ["release"])), true))
  else
    (makedirs
      (if existsFS fs (sd ++ ["release"]) = true
       then eraseTree fs (sd ++ ["release"]) else fs)
      (sd ++ ["release"]), false)

/-! ### Basic lemmas about the primitives -/

theorem pfx_refl {α : Type} [DecidableEq α] (p : List α) : pfx p p = true := by
  induction p with
  | nil => rfl
  | cons a x ih => simp [pfx, ih]

theorem pfx_append {α : Type} [DecidableEq α] (p t : List α) : pfx p (p ++ t) = true := by
  induction p with
  | nil => rfl
  | cons a x ih => simp [pfx, ih]

theorem append_drop_of_pfx {α : Type} [DecidableEq α] {p q : List α}
    (h : pfx p q = true) : p ++ q.drop p.length = q := by
  induction p generalizing q with
  | nil => simp
  | cons a x ih =>
    cases q with
    | nil => simp [pfx] at h
    | cons b y =>
      simp only [pfx, Bool.and_eq_true, decide_eq_true_eq] at h
      simp [h.1, ih h.2]

theorem pfx_iff_append {α : Type} [DecidableEq α] (p q : List α) :
    pfx p q = true ↔ ∃ t, q = p ++ t := by
  constructor
  · intro h
    exact ⟨q.drop p.length, (append_drop_of_pfx h).symm⟩
  · rintro ⟨t, rfl⟩
    exact pfx_append p t

theorem pfx_append_cancel {α : Type} [DecidableEq α] (l x y : List α) :
    pfx (l ++ x) (l ++ y) = pfx x y := by
  induction l with
  | nil => rfl
  | cons a m ih => simp [pfx, ih]

theorem pfx_length_le {α : Type} [DecidableEq α] {p q : List α}
    (h : pfx p q = true) : p.length ≤ q.length := by
  rcases (pfx_iff_append p q).mp h with ⟨t, rfl⟩
  simp

theorem pfx_antisymm {α : Type} [DecidableEq α] {p q : List α}
    (h1 : pfx p q = true) (h2 : pfx q p = true) : p = q := by
  rcases (pfx_iff_append p q).mp h1 with ⟨t, rfl⟩
  have := pfx_length_le h2
  simp only [List.length_append] at this
  have ht : t = [] := List.eq_nil_of_length_eq_zero (by omega)
  simp [ht]

theorem pfx_trans {α : Type} [DecidableEq α] {p q r : List α}
    (h1 : pfx p q = true) (h2 : pfx q r = true) : pfx p r = true := by
  rcases (pfx_iff_append p q).mp h1 with ⟨t, rfl⟩
  rcases (pfx_iff_append _ r).mp h2 with ⟨u, rfl⟩
  rw [List.append_assoc]
  exact pfx_append p (t ++ u)

theorem pfx_of_append_pfx {α : Type} [DecidableEq α] {p t q : List α}
    (h : pfx (p ++ t) q = true) : pfx p q = true :=
  pfx_trans (pfx_append p t) h

theorem pfx_comparable {α : Type} [DecidableEq α] {x y z : List α}
    (hx : pfx x z = true) (hy : pfx y z = true) :
    pfx x y = true ∨ pfx y x = true := by
  induction z generalizing x y with
  | nil =>
    cases x with
    | nil => exact Or.inl rfl
    | cons a x' => simp [pfx] at hx
  | cons c z' ih =>
    cases x with
    | nil => exact Or.inl rfl
    | cons a x' =>
      cases y with
      | nil => exact Or.inr rfl
      | cons b y' =>
        simp only [pfx, Bool.and_eq_true, decide_eq_true_eq] at hx hy
        rcases ih hx.2 hy.2 with h | h
        · exact Or.inl (by simp [pfx, hx.1, hy.1, h])
        · exact Or.inr (by simp [pfx, hx.1, hy.1, h])

theorem pfx_seg_ne {sd : Path} {a b : String} {x y : Path} (h : a ≠ b) :
    pfx (sd ++ a :: x) (sd ++ b :: y) = false := by
  rw [pfx_append_cancel]
  simp [pfx, h]

theorem lookup_filter_keep (f : Path × Node → Bool) (fs : FS) (q : Path)
    (hq : ∀ n, f (q, n) = true) :
    lookupFS (fs.filter f) q = lookupFS fs q := by
  induction fs with
  | nil => rfl
  | cons e rest ih =>
    by_cases hf : f e = true
    · by_cases he : e.1 = q
      · simp [List.filter, hf, lookupFS, he]
      · simp [List.filter, hf, lookupFS, he, ih]
    · have he : e.1 ≠ q := by
        intro h
        exact hf (by rw [show e = (q, e.2) from Prod.ext h rfl]; exact hq e.2)
      simp only [List.filter, Bool.not_eq_true] at hf ⊢
      rw [hf]
      simp [lookupFS, he, ih]

theorem lookup_filter_drop (f : Path × Node → Bool) (fs : FS) (q : Path)
    (hq : ∀ n, f (q, n) = false) :
    lookupFS (fs.filter f) q = none := by
  induction fs with
  | nil => rfl
  | cons e rest ih =>
    by_cases hf : f e = true
    · have he : e.1 ≠ q := by
        intro h
        rw [show e = (q, e.2) from Prod.ext h rfl, hq e.2] at hf
        exact Bool.false_ne_true hf
      simp [List.filter, hf, lookupFS, he, ih]
    · simp only [List.filter, Bool.not_eq_true] at hf ⊢
      rw [hf]
      exact ih

theorem lookup_eraseKey (fs : FS) (p q : Path) :
    lookupFS (eraseKey fs p) q = if q = p then none else lookupFS fs q := by
  by_cases hq : q = p
  · subst hq
    simp only [if_pos rfl]
    exact lookup_filter_drop _ fs q (fun n => by simp)
  · simp only [if_neg hq]
    exact lookup_filter_keep _ fs q (fun n => by simp [hq])

theorem lookup_eraseTree (fs : FS) (p q : Path) :
    lookupFS (eraseTree fs p) q = if pfx p q then none else lookupFS fs q := by
  by_cases hq : pfx p q = true
  · rw [if_pos hq]
    exact lookup_filter_drop _ fs q (fun n => by simp [hq])
  · rw [if_neg hq]
    exact lookup_filter_keep _ fs q (fun n => by simp [Bool.not_eq_true] at hq; simp [hq])

theorem lookup_setNode (fs : FS) (p : Path) (n : Node) (q : Path) :
    lookupFS (setNode fs p n) q = if q = p then some n else lookupFS fs q := by
  by_cases hq : q = p
  · simp [setNode, lookupFS, hq]
  · simp only [setNode, lookupFS]
    rw [if_neg (fun h => hq (h.symm)), lookup_eraseKey, if_neg hq, if_neg hq]

theorem lookup_eq_none_iff_not_mem_keys (fs : FS) (p : Path) :
    lookupFS fs p = none ↔ p ∉ keys fs := by
  induction fs with
  | nil => simp [lookupFS, keys]
  | cons e rest ih =>
    simp only [lookupFS, keys, List.map_cons, List.mem_cons]
    by_cases he : e.1 = p
    · constructor
      · intro h
        rw [if_pos he] at h
        exact Option.noConfusion h
      · intro h
        exact ((h (Or.inl he.symm))).elim
    · simp only [he, if_false]
      rw [ih]
      unfold keys
      constructor
      · intro h hor
        rcases hor with h1 | h2
        · exact he h1.symm
        · exact h h2
      · intro h hm
        exact h (Or.inr hm)

theorem lookup_foldl_addDir (l : List Path) (fs : FS) (q : Path) :
    lookupFS (l.foldl addDirIfAbsent fs) q =
      if q ∈ l ∧ lookupFS fs q = none then some Node.dir else lookupFS fs q := by
  induction l generalizing fs with
  | nil => simp
  | cons a l ih =>
    simp only [List.foldl_cons]
    rw [ih]
    rcases hfs : lookupFS fs q with _ | v
    · by_cases ha : a = q
      · subst ha
        simp only [addDirIfAbsent, hfs, lookupFS, if_pos rfl]
        simp [List.mem_cons]
      · have hfs' : lookupFS (addDirIfAbsent fs a) q = none := by
          unfold addDirIfAbsent
          rcases lookupFS fs a with _ | w
          · simpa [lookupFS, ha] using hfs
          · exact hfs
        rw [hfs']
        have ha' : q ≠ a := fun h => ha h.symm
        by_cases hl : q ∈ l <;> simp [hl, hfs, ha']
    · have hfs' : lookupFS (addDirIfAbsent fs a) q = some v := by
        unfold addDirIfAbsent
        rcases ha : lookupFS fs a with _ | w
        · by_cases haq : a = q
          · subst haq; rw [ha] at hfs; exact absurd hfs (by simp)
          · simpa [lookupFS, haq] using hfs
        · exact hfs
      rw [hfs']
      simp [hfs]

theorem mem_initialSegs_iff (p q : Path) : q ∈ initialSegs p ↔ pfx q p = true := by
  unfold initialSegs
  simp only [List.mem_map, List.mem_range]
  constructor
  · rintro ⟨i, _, rfl⟩
    rw [pfx_iff_append]
    exact ⟨p.drop i, (List.take_append_drop i p).symm⟩
  · intro h
    rcases (pfx_iff_append q p).mp h with ⟨t, rfl⟩
    refine ⟨q.length, by simp; omega, ?_⟩
    simp

theorem lookup_makedirs (fs : FS) (p q : Path) :
    lookupFS (makedirs fs p) q =
      if pfx q p = true ∧ lookupFS fs q = none then some Node.dir else lookupFS fs q := by
  unfold makedirs
  rw [lookup_foldl_addDir]
  by_cases h : pfx q p = true <;> simp [mem_initialSegs_iff, h]

/-! ### Preservation of key uniqueness -/

theorem keysNodup_filter (fs : FS) (f : Path × Node → Bool) (h : KeysNodup fs) :
    KeysNodup (fs.filter f) :=
  List.Sublist.nodup (List.Sublist.map Prod.fst (List.filter_sublist fs)) h

theorem keysNodup_eraseKey (fs : FS) (p : Path) (h : KeysNodup fs) :
    KeysNodup (eraseKey fs p) := keysNodup_filter fs _ h

theorem keysNodup_eraseTree (fs : FS) (p : Path) (h : KeysNodup fs) :
    KeysNodup (eraseTree fs p) := keysNodup_filter fs _ h

theorem keysNodup_setNode (fs : FS) (p : Path) (n : Node) (h : KeysNodup fs) :
    KeysNodup (setNode fs p n) := by
  unfold KeysNodup keys setNode
  simp only [List.map_cons]
  refine List.Nodup.cons ?_ (keysNodup_eraseKey fs p h)
  intro hmem
  have := (lookup_eq_none_iff_not_mem_keys (eraseKey fs p) p).mpr
  rw [lookup_eraseKey, if_pos rfl] at this
  exact absurd hmem (by
    intro hm
    have h2 := (lookup_eq_none_iff_not_mem_keys (eraseKey fs p) p).mp
      (by rw [lookup_eraseKey, if_pos rfl])
    exact h2 hm)

theorem keysNodup_addDirIfAbsent (fs : FS) (q : Path) (h : KeysNodup fs) :
    KeysNodup (addDirIfAbsent fs q) := by
  unfold addDirIfAbsent
  rcases hq : lookupFS fs q with _ | v
  · unfold KeysNodup keys
    simp only [List.map_cons]
    exact List.Nodup.cons ((lookup_eq_none_iff_not_mem_keys fs q).mp hq) h
  · exact h

theorem keysNodup_makedirs (fs : FS) (p : Path) (h : KeysNodup fs) :
    KeysNodup (makedirs fs p) := by
  unfold makedirs
  generalize initialSegs p = l
  induction l generalizing fs with
  | nil => exact h
  | cons a l ih => exact ih (addDirIfAbsent fs a) (keysNodup_addDirIfAbsent fs a h)

theorem keysNodup_foldl_setNode (l : List (Path × Node)) (g : Path → Path) (base : FS)
    (h : KeysNodup base) :
    KeysNodup (l.foldl (fun acc e => setNode acc (g e.1) e.2) base) := by
  induction l generalizing base with
  | nil => exact h
  | cons e l ih => exact ih _ (keysNodup_setNode base (g e.1) e.2 h)

theorem keysNodup_copytree (fs : FS) (s d : Path) (h : KeysNodup fs) :
    KeysNodup (copytree fs s d) := by
  unfold copytree
  exact keysNodup_foldl_setNode (fs.filter (fun e => pfx s e.1))
    (fun k => d ++ k.drop s.length) (makedirs fs d) (keysNodup_makedirs fs d h)

theorem keysNodup_copy2 (fs : FS) (s d : Path) (h : KeysNodup fs) :
    KeysNodup (copy2 fs s d) := by
  unfold copy2
  rcases lookupFS fs s with _ | n
  · exact h
  · cases n with
    | file c => exact keysNodup_setNode fs d _ h
    | dir => exact h

theorem keysNodup_mergeStep (src dest : Path) (acc : FS) (item : String)
    (h : KeysNodup acc) : KeysNodup (mergeStep src dest acc item) := by
  unfold mergeStep
  by_cases hd : isDirFS acc (src ++ [item]) = true
  · simp only [hd, if_true]
    exact keysNodup_copytree acc _ _ h
  · simp only [hd, if_false]
    exact keysNodup_copy2 acc _ _ h

theorem keysNodup_foldl_mergeStep (src dest : Path) (l : List String) (base : FS)
    (h : KeysNodup base) : KeysNodup (l.foldl (mergeStep src dest) base) := by
  induction l generalizing base with
  | nil => exact h
  | cons a l ih => exact ih _ (keysNodup_mergeStep src dest base a h)

theorem keysNodup_copy_directory_contents (fs : FS) (src dest : Path) (h : KeysNodup fs) :
    KeysNodup (copy_directory_contents fs src dest) := by
  unfold copy_directory_contents
  by_cases hs : lookupFS fs src = none
  · simpa [hs]
  · simp only [hs, if_false]
    exact keysNodup_foldl_mergeStep src dest _ _ (keysNodup_makedirs fs dest h)

/-! ### Characterizing `copytree` -/

theorem lookup_foldl_setNode (l : List (Path × Node)) (g : Path → Path) (base : FS) (q : Path)
    (hinj : ∀ e1, e1 ∈ l → ∀ e2, e2 ∈ l → g e1.1 = g e2.1 → e1.1 = e2.1)
    (hnd : (l.map Prod.fst).Nodup) :
    lookupFS (l.foldl (fun acc e => setNode acc (g e.1) e.2) base) q =
      match l.find? (fun e => decide (g e.1 = q)) with
      | some e => some e.2
      | none => lookupFS base q := by
  induction l generalizing base with
  | nil => simp [List.find?]
  | cons e l ih =>
    simp only [List.foldl_cons]
    rw [ih (setNode base (g e.1) e.2)
        (fun e1 h1 e2 h2 => hinj e1 (List.mem_cons_of_mem e h1) e2 (List.mem_cons_of_mem e h2))
        (by simp only [List.map_cons, List.nodup_cons] at hnd; exact hnd.2)]
    by_cases hq : g e.1 = q
    · have hfind : l.find? (fun e2 => decide (g e2.1 = q)) = none := by
        rw [List.find?_eq_none]
        intro e2 h2 hpred
        simp only [decide_eq_true_eq] at hpred
        have hkey : e.1 = e2.1 :=
          hinj e (List.mem_cons_self e l) e2 (List.mem_cons_of_mem e h2) (by rw [hq, hpred])
        simp only [List.map_cons, List.nodup_cons] at hnd
        exact hnd.1 (hkey ▸ List.mem_map_of_mem Prod.fst h2)
      rw [hfind, List.find?_cons_of_pos _ (by simpa using hq), lookup_setNode, if_pos hq.symm]
    · rw [List.find?_cons_of_neg _ (by simpa using hq)]
      rcases hfind2 : l.find? (fun e2 => decide (g e2.1 = q)) with _ | e2
      · simp only [hfind2]
        rw [lookup_setNode, if_neg (fun h => hq h.symm)]
      · simp only [hfind2]

theorem find?_subtree (fs : FS) (s d r : Path) :
    ((fs.filter (fun e => pfx s e.1)).find?
        (fun e => decide (d ++ e.1.drop s.length = d ++ r))) =
      match lookupFS fs (s ++ r) with
      | some n => some (s ++ r, n)
      | none => none := by
  induction fs with
  | nil => simp [lookupFS, List.find?]
  | cons e rest ih =>
    by_cases hp : pfx s e.1 = true
    · have hdecomp : s ++ e.1.drop s.length = e.1 := append_drop_of_pfx hp
      have hfilter : List.filter (fun e => pfx s e.1) (e :: rest) =
          e :: List.filter (fun e => pfx s e.1) rest := by
        simp [List.filter_cons, hp]
      by_cases hk : e.1 = s ++ r
      · have hdrop : e.1.drop s.length = r := by
          have h2 : s ++ e.1.drop s.length = s ++ r := by rw [hdecomp, hk]
          exact List.append_cancel_left h2
        rw [hfilter, List.find?_cons_of_pos _ (by simp [hdrop]),
          show lookupFS (e :: rest) (s ++ r) = some e.2 by simp [lookupFS, hk]]
        exact congrArg some (Prod.ext hk rfl)
      · have hdrop : e.1.drop s.length ≠ r := by
          intro h
          exact hk (by rw [← hdecomp, h])
        rw [hfilter, List.find?_cons_of_neg _ (by simp [hdrop]),
          show lookupFS (e :: rest) (s ++ r) = lookupFS rest (s ++ r) by simp [lookupFS, hk]]
        exact ih
    · have hk : e.1 ≠ s ++ r := by
        intro h
        rw [h] at hp
        exact hp (pfx_append s r)
      have hfilter : List.filter (fun e => pfx s e.1) (e :: rest) =
          List.filter (fun e => pfx s e.1) rest := by
        simp [List.filter_cons, hp]
      rw [hfilter,
        show lookupFS (e :: rest) (s ++ r) = lookupFS rest (s ++ r) by simp [lookupFS, hk]]
      exact ih

theorem lookup_copytree (fs : FS) (s d q : Path) (hnd : KeysNodup fs) :
    lookupFS (copytree fs s d) q =
      if pfx d q = true ∧ lookupFS fs (s ++ q.drop d.length) ≠ none
      then lookupFS fs (s ++ q.drop d.length)
      else lookupFS (makedirs fs d) q := by
  have hinj : ∀ e1, e1 ∈ fs.filter (fun e => pfx s e.1) →
      ∀ e2, e2 ∈ fs.filter (fun e => pfx s e.1) →
      (fun k => d ++ k.drop s.length) e1.1 = (fun k => d ++ k.drop s.length) e2.1 →
      e1.1 = e2.1 := by
    intro e1 h1 e2 h2 hg
    have hp1 : pfx s e1.1 = true := by
      have := List.of_mem_filter h1
      simpa using this
    have hp2 : pfx s e2.1 = true := by
      have := List.of_mem_filter h2
      simpa using this
    simp only at hg
    have hd : e1.1.drop s.length = e2.1.drop s.length := List.append_cancel_left hg
    rw [← append_drop_of_pfx hp1, ← append_drop_of_pfx hp2, hd]
  have hct : lookupFS (copytree fs s d) q =
      match (fs.filter (fun e => pfx s e.1)).find?
          (fun e => decide (d ++ e.1.drop s.length = q)) with
      | some e => some e.2
      | none => lookupFS (makedirs fs d) q :=
    lookup_foldl_setNode (fs.filter (fun e => pfx s e.1))
      (fun k => d ++ k.drop s.length) (makedirs fs d) q hinj (keysNodup_filter fs _ hnd)
  rw [hct]
  by_cases hdq : pfx d q = true
  · have hq : q = d ++ q.drop d.length := (append_drop_of_pfx hdq).symm
    rw [show (fun e : Path × Node => decide (d ++ e.1.drop s.length = q)) =
        (fun e : Path × Node => decide (d ++ e.1.drop s.length = d ++ q.drop d.length)) by
      rw [← hq]]
    rw [find?_subtree]
    rcases hl : lookupFS fs (s ++ q.drop d.length) with _ | n
    · simp [hdq, hl]
    · simp [hdq, hl]
  · have hfind : ((fs.filter (fun e => pfx s e.1)).find?
        (fun e => decide (d ++ e.1.drop s.length = q))) = none := by
      rw [List.find?_eq_none]
      intro e _ hpred
      simp only [decide_eq_true_eq] at hpred
      exact hdq (hpred ▸ pfx_append d (e.1.drop s.length))
    rw [hfind]
    simp [hdq]

/-! ### Characterizing `copy_directory_contents` -/

theorem no_common_ext {s d z : Path} (hs : pfx s z = true) (hd : pfx d z = true)
    (hsd : pfx s d = false) (hds : pfx d s = false) : False := by
  rcases pfx_comparable hs hd with h | h
  · rw [hsd] at h
    exact Bool.false_ne_true h
  · rw [hds] at h
    exact Bool.false_ne_true h

theorem lookup_ne_none_iff (fs : FS) (p : Path) :
    lookupFS fs p ≠ none ↔ ∃ n, (p, n) ∈ fs := by
  rw [ne_eq, lookup_eq_none_iff_not_mem_keys, not_not]
  unfold keys
  rw [List.mem_map]
  constructor
  · rintro ⟨e, he, rfl⟩
    exact ⟨e.2, he⟩
  · rintro ⟨n, hn⟩
    exact ⟨(p, n), hn, rfl⟩

theorem mem_children_iff (fs : FS) (s : Path) (a : String) :
    a ∈ children fs s ↔ lookupFS fs (s ++ [a]) ≠ none := by
  unfold children
  rw [List.mem_filterMap, lookup_ne_none_iff]
  constructor
  · rintro ⟨e, he, hfa⟩
    rcases hdrop : e.1.drop s.length with _ | ⟨n, rest⟩ <;> rw [hdrop] at hfa
    · exact absurd hfa (by simp)
    · rcases rest with _ | ⟨m, rest2⟩
      · have hfa' : (if pfx s e.1 = true then some n else none) = some a := hfa
        by_cases hp : pfx s e.1 = true
        · rw [if_pos hp] at hfa'
          have hkey : e.1 = s ++ [a] := by
            rw [← append_drop_of_pfx hp, hdrop]
            cases hfa'
            rfl
          exact ⟨e.2, hkey ▸ he⟩
        · rw [if_neg hp] at hfa'
          exact absurd hfa' (by simp)
      · exact absurd hfa (by simp)
  · rintro ⟨n, hn⟩
    refine ⟨(s ++ [a], n), hn, ?_⟩
    have hdrop : (s ++ [a]).drop s.length = [a] := by simp
    rw [hdrop]
    show (if pfx s (s ++ [a]) = true then some a else none) = some a
    rw [if_pos (pfx_append s [a])]

theorem children_cons_no_child (fs : FS) (s : Path) (q : Path) (n : Node)
    (h : ∀ a : String, q ≠ s ++ [a]) :
    children ((q, n) :: fs) s = children fs s := by
  unfold children
  rw [List.filterMap_cons]
  rcases hdrop : q.drop s.length with _ | ⟨b, rest⟩
  · simp
  · rcases rest with _ | ⟨m, rest2⟩
    · by_cases hp : pfx s q = true
      · exact absurd (by rw [← append_drop_of_pfx hp, hdrop]) (h b)
      · simp [hp]
    · simp

theorem children_foldl_addDir (l : List Path) (fs : FS) (s : Path)
    (h : ∀ q ∈ l, ∀ a : String, q ≠ s ++ [a]) :
    children (l.foldl addDirIfAbsent fs) s = children fs s := by
  induction l generalizing fs with
  | nil => rfl
  | cons q l ih =>
    simp only [List.foldl_cons]
    rw [ih _ (fun q2 h2 => h q2 (List.mem_cons_of_mem q h2))]
    unfold addDirIfAbsent
    rcases lookupFS fs q with _ | v
    · exact children_cons_no_child fs s q Node.dir (h q (List.mem_cons_self q l))
    · rfl

theorem children_makedirs (fs : FS) (s d : Path) (hsd : pfx s d = false) :
    children (makedirs fs d) s = children fs s := by
  unfold makedirs
  refine children_foldl_addDir _ fs s ?_
  intro q hq a hqa
  rw [mem_initialSegs_iff] at hq
  subst hqa
  exact absurd (pfx_trans (pfx_append s [a]) hq) (by rw [hsd]; simp)

theorem bool_eq_false_of_not {b : Bool} (h : ¬ b = true) : b = false := by
  cases b
  · rfl
  · exact absurd rfl h

theorem pfx_nil_right {α : Type} [DecidableEq α] (x : List α) :
    pfx x [] = true ↔ x = [] := by
  cases x with
  | nil => simp [pfx]
  | cons a y => simp [pfx]

theorem pfx_snoc {p d : Path} {a : String} (h : pfx p (d ++ [a]) = true) :
    pfx p d = true ∨ p = d ++ [a] := by
  induction d generalizing p with
  | nil =>
    cases p with
    | nil => exact Or.inl rfl
    | cons b x =>
      simp only [List.nil_append, pfx, Bool.and_eq_true, decide_eq_true_eq] at h
      rcases h with ⟨rfl, hx⟩
      exact Or.inr (by rw [(pfx_nil_right x).mp hx]; rfl)
  | cons e d' ih =>
    cases p with
    | nil => exact Or.inl rfl
    | cons b x =>
      simp only [List.cons_append, pfx, Bool.and_eq_true, decide_eq_true_eq] at h
      rcases h with ⟨rfl, hx⟩
      rcases ih hx with h2 | rfl
      · exact Or.inl (by simp [pfx, h2])
      · exact Or.inr rfl

theorem lookup_copy2 (fs : FS) (s d q : Path) :
    lookupFS (copy2 fs s d) q =
      match lookupFS fs s with
      | some (Node.file c) => if q = d then some (Node.file c) else lookupFS fs q
      | _ => lookupFS fs q := by
  unfold copy2
  rcases lookupFS fs s with _ | n
  · rfl
  · cases n with
    | file c => rw [lookup_setNode]
    | dir => rfl

theorem mergeStep_lookup_src (s d : Path) (acc : FS) (a : String) (x : Path)
    (hnd : KeysNodup acc) (hsd : pfx s d = false) (hds : pfx d s = false) :
    lookupFS (mergeStep s d acc a) (s ++ x) = lookupFS acc (s ++ x) := by
  have hda : pfx (d ++ [a]) (s ++ x) = false := by
    refine bool_eq_false_of_not (fun h => ?_)
    exact no_common_ext (pfx_append s x) (pfx_of_append_pfx h) hsd hds
  have hsa : pfx (s ++ x) (d ++ [a]) = false := by
    refine bool_eq_false_of_not (fun h => ?_)
    exact no_common_ext (pfx_of_append_pfx h) (pfx_append d [a]) hsd hds
  unfold mergeStep
  by_cases hdir : isDirFS acc (s ++ [a]) = true
  · rw [if_pos hdir, lookup_copytree _ _ _ _ hnd,
      if_neg (fun hc => by rw [hda] at hc; exact Bool.false_ne_true hc.1),
      lookup_makedirs,
      if_neg (fun hc => by rw [hsa] at hc; exact Bool.false_ne_true hc.1)]
  · rw [if_neg hdir, lookup_copy2]
    rcases lookupFS acc (s ++ [a]) with _ | n
    · rfl
    · cases n with
      | file c =>
        show (if s ++ x = d ++ [a] then some (Node.file c) else lookupFS acc (s ++ x)) =
          lookupFS acc (s ++ x)
        rw [if_neg (fun hc : s ++ x = d ++ [a] => by
          rw [hc, pfx_refl] at hsa
          exact Bool.noConfusion hsa)]
      | dir => rfl

theorem mergeStep_pres_ne_none (s d : Path) (acc : FS) (a : String) (q : Path)
    (hnd : KeysNodup acc) (hq : lookupFS acc q ≠ none) :
    lookupFS (mergeStep s d acc a) q ≠ none := by
  unfold mergeStep
  by_cases hdir : isDirFS acc (s ++ [a]) = true
  · rw [if_pos hdir, lookup_copytree _ _ _ _ hnd]
    by_cases hc : pfx (d ++ [a]) q = true ∧
        lookupFS acc ((s ++ [a]) ++ q.drop (d ++ [a]).length) ≠ none
    · rw [if_pos hc]
      exact hc.2
    · rw [if_neg hc, lookup_makedirs]
      by_cases hm : pfx q (d ++ [a]) = true ∧ lookupFS acc q = none
      · rw [if_pos hm]
        simp
      · rw [if_neg hm]
        exact hq
  · rw [if_neg hdir, lookup_copy2]
    rcases lookupFS acc (s ++ [a]) with _ | n
    · exact hq
    · cases n with
      | file c =>
        show (if q = d ++ [a] then some (Node.file c) else lookupFS acc q) ≠ none
        by_cases hqd : q = d ++ [a]
        · rw [if_pos hqd]
          simp
        · rw [if_neg hqd]
          exact hq
      | dir => exact hq

theorem copiedVal_ne_none_src {fs : FS} {s : Path} {a : String} {r' : Path} {n : Node}
    (h : copiedVal fs s (a :: r') = some n) : lookupFS fs (s ++ [a]) ≠ none := by
  simp only [copiedVal] at h
  by_cases hr : r' = []
  · rw [if_pos hr] at h
    rw [h]
    simp
  · rw [if_neg hr] at h
    by_cases hdir : isDirFS fs (s ++ [a]) = true
    · unfold isDirFS at hdir
      simp only [decide_eq_true_eq] at hdir
      rw [hdir]
      simp
    · rw [if_neg hdir] at h
      exact absurd h (by simp)

theorem mergeStep_write (fsOrig acc : FS) (s d : Path) (a : String) (r' : Path)
    (hnd : KeysNodup acc)
    (hstable : ∀ x, lookupFS acc (s ++ x) = lookupFS fsOrig (s ++ x))
    (ha : lookupFS fsOrig (s ++ [a]) ≠ none) :
    lookupFS (mergeStep s d acc a) (d ++ a :: r') =
      match copiedVal fsOrig s (a :: r') with
      | some n => some n
      | none => lookupFS acc (d ++ a :: r') := by
  have hdir_eq : isDirFS acc (s ++ [a]) = isDirFS fsOrig (s ++ [a]) := by
    unfold isDirFS
    rw [hstable [a]]
  have hq : d ++ a :: r' = (d ++ [a]) ++ r' := by simp
  unfold mergeStep
  by_cases hdir : isDirFS acc (s ++ [a]) = true
  · have hdirO : isDirFS fsOrig (s ++ [a]) = true := by rw [← hdir_eq]; exact hdir
    rw [if_pos hdir, hq, lookup_copytree _ _ _ _ hnd]
    have hdrop : ((d ++ [a]) ++ r').drop (d ++ [a]).length = r' := by
      simp
    have hlk : lookupFS acc ((s ++ [a]) ++ ((d ++ [a]) ++ r').drop (d ++ [a]).length) =
        lookupFS fsOrig (s ++ ([a] ++ r')) := by
      rw [hdrop, List.append_assoc]
      exact hstable ([a] ++ r')
    by_cases hsrc : lookupFS fsOrig (s ++ ([a] ++ r')) = none
    · have hr' : r' ≠ [] := by
        intro hr
        rw [hr] at hsrc
        simp only [List.append_nil] at hsrc
        exact ha hsrc
      rw [if_neg (fun hc => by rw [hlk, hsrc] at hc; exact hc.2 rfl), lookup_makedirs,
        if_neg (fun hc : pfx ((d ++ [a]) ++ r') (d ++ [a]) = true ∧ _ => by
          have hlen := pfx_length_le hc.1
          simp only [List.length_append] at hlen
          have : r'.length = 0 := by omega
          exact hr' (List.eq_nil_of_length_eq_zero this))]
      simp only [copiedVal]
      rw [if_neg hr', if_pos hdirO,
        show s ++ [a] ++ r' = s ++ ([a] ++ r') from by simp, hsrc, ← hq]
    · rw [if_pos ⟨by rw [hq] at hq ⊢; exact pfx_append (d ++ [a]) r', by rw [hlk]; exact hsrc⟩,
        hlk]
      simp only [copiedVal]
      by_cases hr' : r' = []
      · subst hr'
        rw [if_pos rfl]
        simp only [List.append_nil]
        rcases hv : lookupFS fsOrig (s ++ [a]) with _ | n
        · exact absurd (by simpa using hv) hsrc
        · rfl
      · rw [if_neg hr', if_pos hdirO]
        rcases hval : lookupFS fsOrig (s ++ ([a] ++ r')) with _ | n
        · exact absurd hval hsrc
        · rw [show s ++ [a] ++ r' = s ++ ([a] ++ r') from by simp, hval]
  · have hdirO : isDirFS fsOrig (s ++ [a]) = false := by
      rw [← hdir_eq]
      exact bool_eq_false_of_not hdir
    rcases hsrc : lookupFS fsOrig (s ++ [a]) with _ | n
    · exact absurd hsrc ha
    · cases n with
      | dir =>
        have hd2 : isDirFS fsOrig (s ++ [a]) = true := by
          unfold isDirFS
          rw [hsrc]
          simp
        rw [hdirO] at hd2
        exact Bool.noConfusion hd2
      | file c =>
        rw [if_neg hdir, lookup_copy2, hstable [a], hsrc]
        by_cases hr' : r' = []
        · subst hr'
          show (if d ++ [a] = d ++ [a] then some (Node.file c) else lookupFS acc (d ++ [a])) =
            match copiedVal fsOrig s [a] with
            | some n => some n
            | none => lookupFS acc (d ++ [a])
          rw [if_pos rfl]
          have hcv : copiedVal fsOrig s [a] = some (Node.file c) := by
            simp only [copiedVal]
            simpa using hsrc
          rw [hcv]
        · show (if d ++ a :: r' = d ++ [a] then some (Node.file c)
              else lookupFS acc (d ++ a :: r')) =
            match copiedVal fsOrig s (a :: r') with
            | some n => some n
            | none => lookupFS acc (d ++ a :: r')
          rw [if_neg (fun hc : d ++ a :: r' = d ++ [a] => by
            have hinj := List.append_cancel_left hc
            simp only [List.cons.injEq] at hinj
            exact hr' hinj.2)]
          have hcv : copiedVal fsOrig s (a :: r') = none := by
            simp only [copiedVal]
            rw [if_neg hr', hdirO]
            simp
          rw [hcv]

theorem mergeStep_frame (acc : FS) (s d : Path) (a : String) (p : Path)
    (hnd : KeysNodup acc)
    (hdpre : ∀ q, pfx q d = true → lookupFS acc q ≠ none)
    (hp : pfx (d ++ [a]) p = false) :
    lookupFS (mergeStep s d acc a) p = lookupFS acc p := by
  have hpd : p ≠ d ++ [a] := by
    intro h
    rw [h, pfx_refl] at hp
    exact Bool.noConfusion hp
  have hmk : ¬ (pfx p (d ++ [a]) = true ∧ lookupFS acc p = none) := by
    rintro ⟨h1, h2⟩
    rcases pfx_snoc h1 with h3 | h3
    · exact hdpre p h3 h2
    · exact hpd h3
  unfold mergeStep
  by_cases hdir : isDirFS acc (s ++ [a]) = true
  · rw [if_pos hdir, lookup_copytree _ _ _ _ hnd,
      if_neg (fun hc => by rw [hp] at hc; exact Bool.false_ne_true hc.1),
      lookup_makedirs, if_neg hmk]
  · rw [if_neg hdir, lookup_copy2]
    rcases lookupFS acc (s ++ [a]) with _ | n
    · rfl
    · cases n with
      | file c =>
        show (if p = d ++ [a] then some (Node.file c) else lookupFS acc p) = lookupFS acc p
        rw [if_neg hpd]
      | dir => rfl

theorem foldl_mergeStep_frame (s d : Path) (L : List String) (acc : FS) (p : Path)
    (hnd : KeysNodup acc)
    (hdpre : ∀ q, pfx q d = true → lookupFS acc q ≠ none)
    (hp : ∀ a ∈ L, pfx (d ++ [a]) p = false) :
    lookupFS (L.foldl (mergeStep s d) acc) p = lookupFS acc p := by
  induction L generalizing acc with
  | nil => rfl
  | cons a L ih =>
    simp only [List.foldl_cons]
    rw [ih (mergeStep s d acc a) (keysNodup_mergeStep s d acc a hnd)
        (fun q hq => mergeStep_pres_ne_none s d acc a q hnd (hdpre q hq))
        (fun b hb => hp b (List.mem_cons_of_mem a hb))]
    exact mergeStep_frame acc s d a p hnd hdpre (hp a (List.mem_cons_self a L))

theorem foldl_mergeStep_write (fsOrig : FS) (s d : Path) (L : List String) (acc : FS)
    (a : String) (r' : Path) (n : Node)
    (hnd : KeysNodup acc)
    (hdpre : ∀ q, pfx q d = true → lookupFS acc q ≠ none)
    (hstable : ∀ x, lookupFS acc (s ++ x) = lookupFS fsOrig (s ++ x))
    (hsd : pfx s d = false) (hds : pfx d s = false)
    (haL : a ∈ L)
    (hcv : copiedVal fsOrig s (a :: r') = some n) :
    lookupFS (L.foldl (mergeStep s d) acc) (d ++ a :: r') = some n := by
  induction L generalizing acc with
  | nil => exact absurd haL (List.not_mem_nil a)
  | cons b L ih =>
    simp only [List.foldl_cons]
    have hnd' : KeysNodup (mergeStep s d acc b) := keysNodup_mergeStep s d acc b hnd
    have hdpre' : ∀ q, pfx q d = true → lookupFS (mergeStep s d acc b) q ≠ none :=
      fun q hq => mergeStep_pres_ne_none s d acc b q hnd (hdpre q hq)
    have hstable' : ∀ x, lookupFS (mergeStep s d acc b) (s ++ x) = lookupFS fsOrig (s ++ x) :=
      fun x => (mergeStep_lookup_src s d acc b x hnd hsd hds).trans (hstable x)
    by_cases haL' : a ∈ L
    · exact ih (mergeStep s d acc b) hnd' hdpre' hstable' haL'
    · have hab : a = b := by
        rcases List.mem_cons.mp haL with h | h
        · exact h
        · exact absurd h haL'
      subst hab
      rw [foldl_mergeStep_frame s d L (mergeStep s d acc a) (d ++ a :: r') hnd' hdpre'
          (fun c hc => by
            have hca : c ≠ a := fun h => haL' (h ▸ hc)
            have : pfx (d ++ c :: []) (d ++ a :: r') = false :=
              pfx_seg_ne (fun h => hca h)
            simpa using this)]
      rw [mergeStep_write fsOrig acc s d a r' hnd hstable (copiedVal_ne_none_src hcv), hcv]

theorem foldl_mergeStep_nowrite (fsOrig : FS) (s d : Path) (L : List String) (acc : FS)
    (a : String) (r' : Path)
    (hnd : KeysNodup acc)
    (hdpre : ∀ q, pfx q d = true → lookupFS acc q ≠ none)
    (hstable : ∀ x, lookupFS acc (s ++ x) = lookupFS fsOrig (s ++ x))
    (hsd : pfx s d = false) (hds : pfx d s = false)
    (hL : ∀ b ∈ L, lookupFS fsOrig (s ++ [b]) ≠ none)
    (hcv : copiedVal fsOrig s (a :: r') = none) :
    lookupFS (L.foldl (mergeStep s d) acc) (d ++ a :: r') = lookupFS acc (d ++ a :: r') := by
  induction L generalizing acc with
  | nil => rfl
  | cons b L ih =>
    simp only [List.foldl_cons]
    have hnd' : KeysNodup (mergeStep s d acc b) := keysNodup_mergeStep s d acc b hnd
    have hdpre' : ∀ q, pfx q d = true → lookupFS (mergeStep s d acc b) q ≠ none :=
      fun q hq => mergeStep_pres_ne_none s d acc b q hnd (hdpre q hq)
    have hstable' : ∀ x, lookupFS (mergeStep s d acc b) (s ++ x) = lookupFS fsOrig (s ++ x) :=
      fun x => (mergeStep_lookup_src s d acc b x hnd hsd hds).trans (hstable x)
    rw [ih (mergeStep s d acc b) hnd' hdpre' hstable'
        (fun c hc => hL c (List.mem_cons_of_mem b hc))]
    by_cases hab : b = a
    · subst hab
      rw [mergeStep_write fsOrig acc s d b r' hnd hstable (hL b (List.mem_cons_self b L)), hcv]
    · exact mergeStep_frame acc s d b (d ++ a :: r') hnd hdpre (by
        have : pfx (d ++ b :: []) (d ++ a :: r') = false := pfx_seg_ne hab
        simpa using this)

/-- Full characterization of a single merge, for source and destination
directories neither of which lies inside the other. -/
theorem lookup_copy_directory_contents (fs : FS) (s d p : Path) (hnd : KeysNodup fs)
    (hsd : pfx s d = false) (hds : pfx d s = false) :
    lookupFS (copy_directory_contents fs s d) p = mergeLookupSpec fs s d p := by
  unfold copy_directory_contents mergeLookupSpec
  by_cases hs : lookupFS fs s = none
  · simp [hs]
  · rw [if_neg hs, if_neg hs]
    show lookupFS ((children (makedirs fs d) s).foldl (mergeStep s d) (makedirs fs d)) p = _
    rw [children_makedirs fs s d hsd]
    have hndb : KeysNodup (makedirs fs d) := keysNodup_makedirs fs d hnd
    have hdpre : ∀ q, pfx q d = true → lookupFS (makedirs fs d) q ≠ none := by
      intro q hq
      rw [lookup_makedirs]
      by_cases hq2 : lookupFS fs q = none
      · rw [if_pos ⟨hq, hq2⟩]
        simp
      · rw [if_neg (fun hc => hq2 hc.2)]
        exact hq2
    have hstable : ∀ x, lookupFS (makedirs fs d) (s ++ x) = lookupFS fs (s ++ x) := by
      intro x
      rw [lookup_makedirs]
      refine if_neg (fun hc => ?_)
      exact no_common_ext (pfx_of_append_pfx hc.1) (pfx_refl d) hsd hds
    have hL : ∀ b ∈ children fs s, lookupFS fs (s ++ [b]) ≠ none :=
      fun b hb => (mem_children_iff fs s b).mp hb
    by_cases hcase : pfx d p = true ∧ p ≠ d
    · rw [if_pos hcase]
      have hpd : d ++ p.drop d.length = p := append_drop_of_pfx hcase.1
      rcases hr : p.drop d.length with _ | ⟨a, r'⟩
      · exact absurd (by rw [← hpd, hr]; simp) hcase.2
      · rcases hcv : copiedVal fs s (a :: r') with _ | n
        · rw [show p = d ++ a :: r' from by rw [← hpd, hr]]
          rw [foldl_mergeStep_nowrite fs s d (children fs s) (makedirs fs d) a r'
            hndb hdpre hstable hsd hds hL hcv]
          rw [lookup_makedirs]
          have hnpd : ¬ (pfx (d ++ a :: r') d = true ∧ lookupFS fs (d ++ a :: r') = none) := by
            rintro ⟨h1, _⟩
            have hlen := pfx_length_le h1
            simp at hlen
          rw [if_neg hnpd]
        · rw [show p = d ++ a :: r' from by rw [← hpd, hr]]
          rw [foldl_mergeStep_write fs s d (children fs s) (makedirs fs d) a r' n
            hndb hdpre hstable hsd hds
            ((mem_children_iff fs s a).mpr (copiedVal_ne_none_src hcv)) hcv]
    · rw [if_neg hcase]
      rw [foldl_mergeStep_frame s d (children fs s) (makedirs fs d) p hndb hdpre
        (fun b hb => by
          refine bool_eq_false_of_not (fun hbp => ?_)
          by_cases hdp : pfx d p = true
          · have hp_eq_d : p = d := by
              by_cases hpd2 : p = d
              · exact hpd2
              · exact absurd ⟨hdp, hpd2⟩ hcase
            rw [hp_eq_d] at hbp
            have hlen := pfx_length_le hbp
            simp at hlen
          · exact hdp (pfx_of_append_pfx hbp))]
      rw [lookup_makedirs]

theorem copiedVal_congr (fs1 fs2 : FS) (s : Path) (r : Path)
    (h : ∀ x, lookupFS fs1 (s ++ x) = lookupFS fs2 (s ++ x)) :
    copiedVal fs1 s r = copiedVal fs2 s r := by
  cases r with
  | nil => rfl
  | cons a r' =>
    simp only [copiedVal]
    by_cases hr' : r' = []
    · rw [if_pos hr', if_pos hr', h [a]]
    · rw [if_neg hr', if_neg hr',
        show isDirFS fs1 (s ++ [a]) = isDirFS fs2 (s ++ [a]) from by
          unfold isDirFS
          rw [h [a]]]
      by_cases hd : isDirFS fs2 (s ++ [a]) = true
      · rw [if_pos hd, if_pos hd,
          show s ++ [a] ++ r' = s ++ ([a] ++ r') from by simp, h ([a] ++ r')]
      · rw [if_neg hd, if_neg hd]

theorem copiedVal_none_of_src_none {fs : FS} {s : Path} {r : Path}
    (h : lookupFS fs (s ++ r) = none) : copiedVal fs s r = none := by
  cases r with
  | nil => rfl
  | cons a r' =>
    simp only [copiedVal]
    by_cases hr' : r' = []
    · rw [if_pos hr']
      rw [hr'] at h
      exact h
    · rw [if_neg hr']
      by_cases hd : isDirFS fs (s ++ [a]) = true
      · rw [if_pos hd, show s ++ [a] ++ r' = s ++ (a :: r') from by simp]
        exact h
      · rw [if_neg hd]

theorem merge_src_subtree_stable (fs : FS) (s d : Path) (hnd : KeysNodup fs)
    (hsd : pfx s d = false) (hds : pfx d s = false) (x : Path) :
    lookupFS (copy_directory_contents fs s d) (s ++ x) = lookupFS fs (s ++ x) := by
  rw [lookup_copy_directory_contents fs s d (s ++ x) hnd hsd hds]
  unfold mergeLookupSpec
  by_cases hs : lookupFS fs s = none
  · rw [if_pos hs]
  · rw [if_neg hs,
      if_neg (fun hc : pfx d (s ++ x) = true ∧ _ =>
        no_common_ext (pfx_append s x) hc.1 hsd hds),
      if_neg (fun hc : pfx (s ++ x) d = true ∧ _ =>
        no_common_ext (pfx_of_append_pfx hc.1) (pfx_refl d) hsd hds)]

/-- Claim C3 (amended): for a source/destination directory pair where
neither directory lies inside the other, `copy_directory_contents` is
idempotent: merging the same source a second time leaves every path
lookup unchanged. For nested pairs the claim is false, because a merge
can write inside its own source subtree. -/
theorem copy_directory_contents_idempotent (fs : FS) (src dest : Path)
    (hnd : KeysNodup fs) (hsd : pfx src dest = false) (hds : pfx dest src = false) :
    FSEquiv (copy_directory_contents (copy_directory_contents fs src dest) src dest)
      (copy_directory_contents fs src dest) := by
  intro p
  by_cases hs : lookupFS fs src = none
  · have hfix : copy_directory_contents fs src dest = fs := by
      unfold copy_directory_contents
      rw [if_pos hs]
    rw [hfix, hfix]
  · have hnd' : KeysNodup (copy_directory_contents fs src dest) :=
      keysNodup_copy_directory_contents fs src dest hnd
    have hstable : ∀ x, lookupFS (copy_directory_contents fs src dest) (src ++ x) =
        lookupFS fs (src ++ x) := merge_src_subtree_stable fs src dest hnd hsd hds
    have hs' : lookupFS (copy_directory_contents fs src dest) src ≠ none := by
      have := hstable []
      simp only [List.append_nil] at this
      rw [this]
      exact hs
    rw [lookup_copy_directory_contents _ src dest p hnd' hsd hds]
    unfold mergeLookupSpec
    rw [if_neg hs']
    by_cases hcase : pfx dest p = true ∧ p ≠ dest
    · rw [if_pos hcase]
      rw [copiedVal_congr _ fs src (p.drop dest.length) hstable]
      rcases hcv : copiedVal fs src (p.drop dest.length) with _ | n
      · rfl
      · rw [lookup_copy_directory_contents fs src dest p hnd hsd hds]
        unfold mergeLookupSpec
        rw [if_neg hs, if_pos hcase, hcv]
    · rw [if_neg hcase]
      by_cases hmk : pfx p dest = true ∧
          lookupFS (copy_directory_contents fs src dest) p = none
      · exfalso
        have hlch : lookupFS (copy_directory_contents fs src dest) p =
            mergeLookupSpec fs src dest p :=
          lookup_copy_directory_contents fs src dest p hnd hsd hds
        unfold mergeLookupSpec at hlch
        rw [if_neg hs, if_neg hcase] at hlch
        by_cases hmk0 : pfx p dest = true ∧ lookupFS fs p = none
        · rw [if_pos hmk0] at hlch
          rw [hlch] at hmk
          exact Option.noConfusion hmk.2
        · rw [if_neg hmk0] at hlch
          rw [hlch] at hmk
          exact hmk0 ⟨hmk.1, hmk.2⟩
      · rw [if_neg hmk]

/-- Claim C3 witness: idempotence holds at a concrete filesystem with a
source file overlaying a destination that also has its own entry. -/
theorem copy_directory_contents_idempotent_witness :
    KeysNodup [((["src"] : Path), Node.dir), (["src", "f.txt"], Node.file "x"),
        (["dst"], Node.dir), (["dst", "keep.txt"], Node.file "k")] ∧
    pfx (["src"] : Path) ["dst"] = false ∧ pfx (["dst"] : Path) ["src"] = false ∧
    FSEquiv
      (copy_directory_contents
        (copy_directory_contents
          [((["src"] : Path), Node.dir), (["src", "f.txt"], Node.file "x"),
            (["dst"], Node.dir), (["dst", "keep.txt"], Node.file "k")]
          ["src"] ["dst"])
        ["src"] ["dst"])
      (copy_directory_contents
        [((["src"] : Path), Node.dir), (["src", "f.txt"], Node.file "x"),
          (["dst"], Node.dir), (["dst", "keep.txt"], Node.file "k")]
        ["src"] ["dst"]) :=
  ⟨by decide, by decide, by decide,
    copy_directory_contents_idempotent _ ["src"] ["dst"] (by decide) (by decide) (by decide)⟩

/-- Claim C3 counterexample: the claim quantifies over every
source/destination directory pair, but for the nested pair
src = a/b, dest = a the merge is NOT idempotent. The source directory
a/b has a subdirectory named b holding a/b/b/x, so the first merge runs
copytree a/b/b -> a/b and writes a/b/x inside the source subtree itself;
the second merge then sees x as a new child of a/b and copies it to a/x,
a path the first merge left absent. The Python code behaves the same
way: os.listdir('a/b') returns ['b'] on the first run but ['b','x'] on
the second, so each run copies the previously copied subtree one level
further. -/
theorem copy_directory_contents_not_idempotent_counterexample :
    lookupFS (copy_directory_contents
        [((([] : Path)), Node.dir), (["a"], Node.dir), (["a", "b"], Node.dir),
          (["a", "b", "b"], Node.dir), (["a", "b", "b", "x"], Node.file "1")]
        ["a", "b"] ["a"])
      ["a", "x"] = none ∧
    lookupFS (copy_directory_contents
        (copy_directory_contents
          [((([] : Path)), Node.dir), (["a"], Node.dir), (["a", "b"], Node.dir),
            (["a", "b", "b"], Node.dir), (["a", "b", "b", "x"], Node.file "1")]
          ["a", "b"] ["a"])
        ["a", "b"] ["a"])
      ["a", "x"] = some (Node.file "1") ∧
    ¬ FSEquiv
      (copy_directory_contents
        (copy_directory_contents
          [((([] : Path)), Node.dir), (["a"], Node.dir), (["a", "b"], Node.dir),
            (["a", "b", "b"], Node.dir), (["a", "b", "b", "x"], Node.file "1")]
          ["a", "b"] ["a"])
        ["a", "b"] ["a"])
      (copy_directory_contents
        [((([] : Path)), Node.dir), (["a"], Node.dir), (["a", "b"], Node.dir),
          (["a", "b", "b"], Node.dir), (["a", "b", "b", "x"], Node.file "1")]
        ["a", "b"] ["a"]) :=
  ⟨by decide, by decide, fun h => absurd (h ["a", "x"]) (by decide)⟩

/-- Claim C4: the merge is an overlay, not a mirror: a destination entry
with no counterpart in the source keeps its exact old value, and when the
source directory does not exist the merge returns the filesystem
unchanged. -/
theorem copy_directory_contents_overlay (fs : FS) (src dest : Path)
    (hnd : KeysNodup fs) (hsd : pfx src dest = false) (hds : pfx dest src = false) :
    (∀ r, r ≠ [] → lookupFS fs (src ++ r) = none →
      lookupFS (copy_directory_contents fs src dest) (dest ++ r) =
        lookupFS fs (dest ++ r)) ∧
    (lookupFS fs src = none → copy_directory_contents fs src dest = fs) := by
  constructor
  · intro r hr hnone
    rw [lookup_copy_directory_contents fs src dest (dest ++ r) hnd hsd hds]
    unfold mergeLookupSpec
    by_cases hs : lookupFS fs src = none
    · rw [if_pos hs]
    · have hne : dest ++ r ≠ dest := by
        intro h
        have h2 : dest ++ r = dest ++ [] := by simpa using h
        exact hr (List.append_cancel_left h2)
      rw [if_neg hs, if_pos ⟨pfx_append dest r, hne⟩,
        show (dest ++ r).drop dest.length = r from by simp,
        copiedVal_none_of_src_none hnone]
  · intro hs
    unfold copy_directory_contents
    rw [if_pos hs]

/-- Claim C4 witness: the overlay property at a concrete filesystem where
the destination holds an entry absent from the source, plus the no-op
case for a missing source. -/
theorem copy_directory_contents_overlay_witness :
    KeysNodup [((["src"] : Path), Node.dir), (["src", "f.txt"], Node.file "x"),
        (["dst"], Node.dir), (["dst", "keep.txt"], Node.file "k")] ∧
    (["keep.txt"] : Path) ≠ [] ∧
    lookupFS [((["src"] : Path), Node.dir), (["src", "f.txt"], Node.file "x"),
        (["dst"], Node.dir), (["dst", "keep.txt"], Node.file "k")]
      (["src"] ++ ["keep.txt"]) = none ∧
    lookupFS
      (copy_directory_contents
        [((["src"] : Path), Node.dir), (["src", "f.txt"], Node.file "x"),
          (["dst"], Node.dir), (["dst", "keep.txt"], Node.file "k")]
        ["src"] ["dst"])
      (["dst"] ++ ["keep.txt"]) =
      lookupFS [((["src"] : Path), Node.dir), (["src", "f.txt"], Node.file "x"),
        (["dst"], Node.dir), (["dst", "keep.txt"], Node.file "k")]
        (["dst"] ++ ["keep.txt"]) :=
  ⟨by decide, by decide, by decide,
    (copy_directory_contents_overlay _ ["src"] ["dst"] (by decide) (by decide) (by decide)).1
      ["keep.txt"] (by decide) (by decide)⟩

/-! ### Removal-list processing: lemmas and claims -/

theorem isDirFS_lookup {fs : FS} {p : Path} (h : isDirFS fs p = true) :
    lookupFS fs p = some Node.dir := by
  unfold isDirFS at h
  simpa using h

theorem isFileFS_some {fs : FS} {p : Path} (h : isFileFS fs p = true) :
    ∃ c, lookupFS fs p = some (Node.file c) := by
  rcases hl : lookupFS fs p with _ | n
  · unfold isFileFS at h
    rw [hl] at h
    simp at h
  · cases n with
    | file c => exact ⟨c, rfl⟩
    | dir =>
      unfold isFileFS at h
      rw [hl] at h
      simp at h

theorem isFileFS_false_of_isDir {fs : FS} {p : Path} (h : isDirFS fs p = true) :
    isFileFS fs p = false := by
  unfold isFileFS
  rw [isDirFS_lookup h]

theorem lookup_eraseKey_ne (fs : FS) (p q : Path) (h : q ≠ p) :
    lookupFS (eraseKey fs p) q = lookupFS fs q := by
  rw [lookup_eraseKey, if_neg h]

theorem lookup_eraseKey_none (fs : FS) (p q : Path) (h : lookupFS fs q = none) :
    lookupFS (eraseKey fs p) q = none := by
  rw [lookup_eraseKey]
  by_cases hq : q = p
  · rw [if_pos hq]
  · rw [if_neg hq]
    exact h

theorem lookup_eraseTree_nopfx (fs : FS) (p q : Path) (h : pfx p q = false) :
    lookupFS (eraseTree fs p) q = lookupFS fs q := by
  rw [lookup_eraseTree, if_neg (by rw [h]; simp)]

theorem lookup_eraseTree_none (fs : FS) (p q : Path) (h : lookupFS fs q = none) :
    lookupFS (eraseTree fs p) q = none := by
  rw [lookup_eraseTree]
  by_cases hq : pfx p q = true
  · rw [if_pos hq]
  · rw [if_neg hq]
    exact h

theorem processLines_append (fail : Path → Bool) (out : Path) (fs : FS) (ls1 ls2 : List String) :
    processLines fail out fs (ls1 ++ ls2) =
      match processLines fail out fs ls1 with
      | (fs1, true) => processLines fail out fs1 ls2
      | (fs1, false) => (fs1, false) := by
  induction ls1 generalizing fs with
  | nil => rfl
  | cons l rest ih =>
    show processLines fail out fs (l :: (rest ++ ls2)) = _
    simp only [processLines]
    by_cases h1 : stripStr l = ""
    · rw [if_pos h1, if_pos h1]
      exact ih fs
    · rw [if_neg h1, if_neg h1]
      by_cases h2 : isFileFS fs (resolvePath out (stripStr l)) = true
      · rw [if_pos h2, if_pos h2]
        by_cases h3 : fail (resolvePath out (stripStr l)) = true
        · rw [if_pos h3, if_pos h3]
        · rw [if_neg h3, if_neg h3]
          exact ih _
      · rw [if_neg h2, if_neg h2]
        by_cases h4 : isDirFS fs (resolvePath out (stripStr l)) = true
        · rw [if_pos h4, if_pos h4]
          by_cases h3 : fail (resolvePath out (stripStr l)) = true
          · rw [if_pos h3, if_pos h3]
          · rw [if_neg h3, if_neg h3]
            exact ih _
        · rw [if_neg h4, if_neg h4]
          exact ih fs

/-- Claim C1 counterexample: removal list "a.txt", "b.txt"; deleting
`a.txt` fails (environment oracle); `b.txt` — whose own deletion would
succeed — is never attempted and survives, and the list file also
survives, refuting the claimed per-line independence. -/
theorem removal_abandons_rest_counterexample :
    lookupFS (removal_phase (fun p => decide (p = ["out", "a.txt"]))
        [((["out"] : Path), Node.dir),
          (["out", "filesToRemove.txt"], Node.file "a.txt\nb.txt"),
          (["out", "a.txt"], Node.file "x"), (["out", "b.txt"], Node.file "y")]
        ["out"]).1
      ["out", "b.txt"] = some (Node.file "y") ∧
    lookupFS (removal_phase (fun p => decide (p = ["out", "a.txt"]))
        [((["out"] : Path), Node.dir),
          (["out", "filesToRemove.txt"], Node.file "a.txt\nb.txt"),
          (["out", "a.txt"], Node.file "x"), (["out", "b.txt"], Node.file "y")]
        ["out"]).1
      ["out", "filesToRemove.txt"] = some (Node.file "a.txt\nb.txt") ∧
    (removal_phase (fun p => decide (p = ["out", "a.txt"]))
        [((["out"] : Path), Node.dir),
          (["out", "filesToRemove.txt"], Node.file "a.txt\nb.txt"),
          (["out", "a.txt"], Node.file "x"), (["out", "b.txt"], Node.file "y")]
        ["out"]).2 = false := by
  decide

/-- Claim C1 (amended): the removal loop runs inside a single `try`, so
when deleting one listed entry fails, the failure is reported but the
remaining entries are NOT attempted: the phase returns exactly the state
reached after the earlier lines, with the error flag set, and the list
file is not deleted. -/
theorem removal_phase_stops_on_failure (fail : Path → Bool) (fs fs1 : FS) (out : Path)
    (content : String) (ls1 : List String) (l : String) (ls2 : List String)
    (hlist : lookupFS fs (out ++ ["filesToRemove.txt"]) = some (Node.file content))
    (hsplit : linesOf content = ls1 ++ l :: ls2)
    (hpre : processLines fail out fs ls1 = (fs1, true))
    (hne : stripStr l ≠ "")
    (htgt : isFileFS fs1 (resolvePath out (stripStr l)) = true ∨
            isDirFS fs1 (resolvePath out (stripStr l)) = true)
    (hfail : fail (resolvePath out (stripStr l)) = true) :
    removal_phase fail fs out = (fs1, false) := by
  have hstep : processLines fail out fs (linesOf content) = (fs1, false) := by
    rw [hsplit, processLines_append, hpre]
    show processLines fail out fs1 (l :: ls2) = (fs1, false)
    simp only [processLines]
    rw [if_neg hne]
    rcases htgt with h | h
    · rw [if_pos h, if_pos hfail]
    · rw [if_neg (by rw [isFileFS_false_of_isDir h]; simp), if_pos h, if_pos hfail]
  unfold removal_phase
  rw [hlist]
  show (match processLines fail out fs (linesOf content) with
    | (fs2, true) =>
      if isFileFS fs2 (out ++ ["filesToRemove.txt"]) = true then
        (if fail (out ++ ["filesToRemove.txt"]) = true then (fs2, false)
         else (eraseKey fs2 (out ++ ["filesToRemove.txt"]), true))
      else (fs2, false)
    | (fs2, false) => (fs2, false)) = (fs1, false)
  rw [hstep]

/-- Claim C1 witness: the amended stop-on-failure behavior instantiated
at the counterexample's filesystem, failing on the first listed entry. -/
theorem removal_phase_stops_on_failure_witness :
    linesOf "a.txt\nb.txt" = [] ++ "a.txt" :: ["b.txt"] ∧
    stripStr "a.txt" ≠ "" ∧
    removal_phase (fun p => decide (p = ["out", "a.txt"]))
      [((["out"] : Path), Node.dir),
        (["out", "filesToRemove.txt"], Node.file "a.txt\nb.txt"),
        (["out", "a.txt"], Node.file "x"), (["out", "b.txt"], Node.file "y")]
      ["out"] =
      ([((["out"] : Path), Node.dir),
        (["out", "filesToRemove.txt"], Node.file "a.txt\nb.txt"),
        (["out", "a.txt"], Node.file "x"), (["out", "b.txt"], Node.file "y")], false) :=
  ⟨by decide, by decide,
    removal_phase_stops_on_failure (fun p => decide (p = ["out", "a.txt"]))
      [((["out"] : Path), Node.dir),
        (["out", "filesToRemove.txt"], Node.file "a.txt\nb.txt"),
        (["out", "a.txt"], Node.file "x"), (["out", "b.txt"], Node.file "y")]
      [((["out"] : Path), Node.dir),
        (["out", "filesToRemove.txt"], Node.file "a.txt\nb.txt"),
        (["out", "a.txt"], Node.file "x"), (["out", "b.txt"], Node.file "y")]
      ["out"] "a.txt\nb.txt" [] "a.txt" ["b.txt"]
      (by decide) (by decide) rfl (by decide) (Or.inl (by decide)) (by decide)⟩

/-- Claim C8: with no environment failures, a removal list naming an
existing file, an existing directory, and a missing path removes the file
and the whole directory subtree, raises no error on the missing path,
and finally deletes the list file itself. -/
theorem removal_phase_success (fs : FS) (out : Path) (content : String)
    (lf ld lm : String)
    (hlist : lookupFS fs (out ++ ["filesToRemove.txt"]) = some (Node.file content))
    (hsplit : linesOf content = [lf, ld, lm])
    (hlfne : stripStr lf ≠ "") (hldne : stripStr ld ≠ "") (hlmne : stripStr lm ≠ "")
    (hfile : isFileFS fs (resolvePath out (stripStr lf)) = true)
    (hdir : isDirFS fs (resolvePath out (stripStr ld)) = true)
    (hmiss : lookupFS fs (resolvePath out (stripStr lm)) = none)
    (hne1 : resolvePath out (stripStr lf) ≠ out ++ ["filesToRemove.txt"])
    (hne2 : pfx (resolvePath out (stripStr ld)) (out ++ ["filesToRemove.txt"]) = false) :
    lookupFS (removal_phase (fun _ => false) fs out).1 (resolvePath out (stripStr lf)) = none ∧
    (∀ q, pfx (resolvePath out (stripStr ld)) q = true →
      lookupFS (removal_phase (fun _ => false) fs out).1 q = none) ∧
    lookupFS (removal_phase (fun _ => false) fs out).1 (out ++ ["filesToRemove.txt"]) = none ∧
    (removal_phase (fun _ => false) fs out).2 = true := by
  rcases isFileFS_some hfile with ⟨cf, hcf⟩
  have hfd : resolvePath out (stripStr lf) ≠ resolvePath out (stripStr ld) := by
    intro h
    rw [h, isDirFS_lookup hdir] at hcf
    exact Node.noConfusion (Option.some.injEq _ _ ▸ hcf)
  have hA2 : lookupFS (eraseKey fs (resolvePath out (stripStr lf)))
      (resolvePath out (stripStr ld)) = lookupFS fs (resolvePath out (stripStr ld)) :=
    lookup_eraseKey_ne fs _ _ (fun h => hfd h.symm)
  have hdirA : isDirFS (eraseKey fs (resolvePath out (stripStr lf)))
      (resolvePath out (stripStr ld)) = true := by
    unfold isDirFS
    rw [hA2, isDirFS_lookup hdir]
    simp
  have hstep : processLines (fun _ => false) out fs (linesOf content) =
      (eraseTree (eraseKey fs (resolvePath out (stripStr lf)))
        (resolvePath out (stripStr ld)), true) := by
    rw [hsplit]
    simp only [processLines]
    rw [if_neg hlfne, if_pos hfile, if_neg (by simp), if_neg hldne,
      if_neg (by rw [isFileFS_false_of_isDir hdirA]; simp), if_pos hdirA, if_neg (by simp),
      if_neg hlmne]
    have hmiss2 : lookupFS (eraseTree (eraseKey fs (resolvePath out (stripStr lf)))
        (resolvePath out (stripStr ld))) (resolvePath out (stripStr lm)) = none :=
      lookup_eraseTree_none _ _ _ (lookup_eraseKey_none _ _ _ hmiss)
    rw [if_neg (by unfold isFileFS; rw [hmiss2]; simp),
      if_neg (by unfold isDirFS; rw [hmiss2]; simp)]
  have hlistB : lookupFS (eraseTree (eraseKey fs (resolvePath out (stripStr lf)))
      (resolvePath out (stripStr ld))) (out ++ ["filesToRemove.txt"]) =
      some (Node.file content) := by
    rw [lookup_eraseTree_nopfx _ _ _ hne2, lookup_eraseKey_ne _ _ _ (fun h => hne1 h.symm)]
    exact hlist
  have hphase : removal_phase (fun _ => false) fs out =
      (eraseKey (eraseTree (eraseKey fs (resolvePath out (stripStr lf)))
        (resolvePath out (stripStr ld))) (out ++ ["filesToRemove.txt"]), true) := by
    unfold removal_phase
    rw [hlist]
    show (match processLines (fun _ => false) out fs (linesOf content) with
      | (fs2, true) =>
        if isFileFS fs2 (out ++ ["filesToRemove.txt"]) = true then
          (if (fun _ => false) (out ++ ["filesToRemove.txt"]) = true then (fs2, false)
           else (eraseKey fs2 (out ++ ["filesToRemove.txt"]), true))
        else (fs2, false)
      | (fs2, false) => (fs2, false)) = _
    rw [hstep]
    show (if isFileFS _ (out ++ ["filesToRemove.txt"]) = true then _ else _) = _
    rw [if_pos (by unfold isFileFS; rw [hlistB]), if_neg (by simp)]
  rw [hphase]
  refine ⟨?_, ?_, ?_, rfl⟩
  · rw [lookup_eraseKey_ne _ _ _ hne1, lookup_eraseTree]
    by_cases hq : pfx (resolvePath out (stripStr ld)) (resolvePath out (stripStr lf)) = true
    · rw [if_pos hq]
    · rw [if_neg hq, lookup_eraseKey, if_pos rfl]
  · intro q hq
    rw [lookup_eraseKey]
    by_cases hql : q = out ++ ["filesToRemove.txt"]
    · rw [if_pos hql]
    · rw [if_neg hql, lookup_eraseTree, if_pos hq]
  · rw [lookup_eraseKey, if_pos rfl]

/-- Claim C8 witness: the success scenario at a concrete output tree with
a listed file, a listed directory with a child, and a missing path. -/
theorem removal_phase_success_witness :
    isFileFS [((["out"] : Path), Node.dir),
        (["out", "filesToRemove.txt"], Node.file "f.txt\nsub\nnope.txt"),
        (["out", "f.txt"], Node.file "x"), (["out", "sub"], Node.dir),
        (["out", "sub", "inner.txt"], Node.file "y")]
      (resolvePath ["out"] (stripStr "f.txt")) = true ∧
    isDirFS [((["out"] : Path), Node.dir),
        (["out", "filesToRemove.txt"], Node.file "f.txt\nsub\nnope.txt"),
        (["out", "f.txt"], Node.file "x"), (["out", "sub"], Node.dir),
        (["out", "sub", "inner.txt"], Node.file "y")]
      (resolvePath ["out"] (stripStr "sub")) = true ∧
    lookupFS (removal_phase (fun _ => false)
        [((["out"] : Path), Node.dir),
          (["out", "filesToRemove.txt"], Node.file "f.txt\nsub\nnope.txt"),
          (["out", "f.txt"], Node.file "x"), (["out", "sub"], Node.dir),
          (["out", "sub", "inner.txt"], Node.file "y")]
        ["out"]).1 (resolvePath ["out"] (stripStr "f.txt")) = none ∧
    lookupFS (removal_phase (fun _ => false)
        [((["out"] : Path), Node.dir),
          (["out", "filesToRemove.txt"], Node.file "f.txt\nsub\nnope.txt"),
          (["out", "f.txt"], Node.file "x"), (["out", "sub"], Node.dir),
          (["out", "sub", "inner.txt"], Node.file "y")]
        ["out"]).1 ["out", "sub", "inner.txt"] = none ∧
    lookupFS (removal_phase (fun _ => false)
        [((["out"] : Path), Node.dir),
          (["out", "filesToRemove.txt"], Node.file "f.txt\nsub\nnope.txt"),
          (["out", "f.txt"], Node.file "x"), (["out", "sub"], Node.dir),
          (["out", "sub", "inner.txt"], Node.file "y")]
        ["out"]).1 ["out", "filesToRemove.txt"] = none ∧
    (removal_phase (fun _ => false)
        [((["out"] : Path), Node.dir),
          (["out", "filesToRemove.txt"], Node.file "f.txt\nsub\nnope.txt"),
          (["out", "f.txt"], Node.file "x"), (["out", "sub"], Node.dir),
          (["out", "sub", "inner.txt"], Node.file "y")]
        ["out"]).2 = true := by
  have h := removal_phase_success
    [((["out"] : Path), Node.dir),
      (["out", "filesToRemove.txt"], Node.file "f.txt\nsub\nnope.txt"),
      (["out", "f.txt"], Node.file "x"), (["out", "sub"], Node.dir),
      (["out", "sub", "inner.txt"], Node.file "y")]
    ["out"] "f.txt\nsub\nnope.txt" "f.txt" "sub" "nope.txt"
    (by decide) (by decide) (by decide) (by decide) (by decide)
    (by decide) (by decide) (by decide) (by decide) (by decide)
  exact ⟨by decide, by decide, h.1, h.2.1 ["out", "sub", "inner.txt"] (by decide),
    h.2.2.1, h.2.2.2⟩

/-- Claim C9: removal-list entries are joined to the output root with no
normalization or containment check: an absolute line resolves to that
absolute path itself (independent of the output root), and a line with
`..` segments deletes an entry outside the output tree — here the list
line `../secret.txt` deletes `secret.txt` beside the output root. -/
theorem removal_targets_not_confined :
    (∀ (base : Path) (line : String), isAbsolutePath line = true →
      resolvePath base line = resolvePath [] line) ∧
    (pfx (["out"] : Path) ["secret.txt"] = false ∧
      lookupFS (removal_phase (fun _ => false)
          [((["out"] : Path), Node.dir),
            (["out", "filesToRemove.txt"], Node.file "../secret.txt"),
            (["secret.txt"], Node.file "TOP")]
          ["out"]).1
        ["secret.txt"] = none) := by
  constructor
  · intro base line habs
    unfold resolvePath
    rw [if_pos habs, if_pos habs]
  · exact ⟨by decide, by decide⟩

/-- Claim C9 witness: an absolute removal line targets the absolute path
itself no matter what the output root is. -/
theorem removal_targets_not_confined_witness :
    isAbsolutePath "/etc/passwd" = true ∧
    resolvePath ["install", "out"] "/etc/passwd" = resolvePath [] "/etc/passwd" ∧
    resolvePath [] "/etc/passwd" = ["etc", "passwd"] :=
  ⟨by decide, removal_targets_not_confined.1 ["install", "out"] "/etc/passwd" (by decide),
    by decide⟩

/-! ### Tier merging in `build_modpack`: lemmas and claims -/

theorem take_append_left {α : Type} (p t : List α) : (p ++ t).take p.length = p := by
  induction p with
  | nil => rfl
  | cons a x ih => simp [ih]

theorem shape_append (sd : Path) (a : String) (x r : Path) :
    (sd ++ a :: x) ++ r = sd ++ a :: (x ++ r) := by
  simp

theorem wf_dir_of_pfx {fs : FS} {k q : Path} (hwf : WellFormedFS fs)
    (hk : lookupFS fs k ≠ none) (hq : pfx q k = true) (hne : q ≠ k) :
    lookupFS fs q = some Node.dir := by
  rcases (lookup_ne_none_iff fs k).mp hk with ⟨n, hn⟩
  rcases (pfx_iff_append q k).mp hq with ⟨t, ht⟩
  have hlen : q.length < k.length := by
    have hle := pfx_length_le hq
    rcases Nat.lt_or_ge q.length k.length with h | h
    · exact h
    · exfalso
      have heq : q.length = k.length := le_antisymm hle h
      have htn : t = [] := by
        have h2 : k.length = q.length + t.length := by rw [ht, List.length_append]
        have h3 : t.length = 0 := by omega
        exact List.eq_nil_of_length_eq_zero h3
      exact hne (by rw [ht, htn, List.append_nil])
  have hwfq := hwf (k, n) hn q.length (by simpa using hlen)
  simp only at hwfq
  rw [ht, take_append_left] at hwfq
  exact hwfq

theorem merge_frame_outside (fs : FS) (s d q : Path) (hnd : KeysNodup fs)
    (hsd : pfx s d = false) (hds : pfx d s = false)
    (h1 : pfx d q = false) (h2 : pfx q d = false) :
    lookupFS (copy_directory_contents fs s d) q = lookupFS fs q := by
  rw [lookup_copy_directory_contents fs s d q hnd hsd hds]
  unfold mergeLookupSpec
  by_cases hs : lookupFS fs s = none
  · rw [if_pos hs]
  · rw [if_neg hs, if_neg (fun hc => by rw [h1] at hc; exact Bool.noConfusion hc.1),
      if_neg (fun hc => by rw [h2] at hc; exact Bool.noConfusion hc.1)]

theorem merge_copies_file (fsCur fsOrig : FS) (s d r : Path) (c : String)
    (hnd : KeysNodup fsCur) (hsd : pfx s d = false) (hds : pfx d s = false)
    (hr : r ≠ [])
    (hstable : ∀ x, lookupFS fsCur (s ++ x) = lookupFS fsOrig (s ++ x))
    (hwf : WellFormedFS fsOrig)
    (hsrc : lookupFS fsOrig (s ++ r) = some (Node.file c)) :
    lookupFS (copy_directory_contents fsCur s d) (d ++ r) = some (Node.file c) := by
  have hkne : lookupFS fsOrig (s ++ r) ≠ none := by
    rw [hsrc]
    simp
  have hssr : s ≠ s ++ r := by
    intro h
    have h2 : s ++ [] = s ++ r := by rw [List.append_nil]; exact h
    exact hr (List.append_cancel_left h2).symm
  have hsne : lookupFS fsCur s ≠ none := by
    have h0 := hstable []
    simp only [List.append_nil] at h0
    rw [h0, wf_dir_of_pfx hwf hkne (pfx_append s r) hssr]
    simp
  have hcv : copiedVal fsCur s r = some (Node.file c) := by
    cases r with
    | nil => exact absurd rfl hr
    | cons a r' =>
      simp only [copiedVal]
      by_cases hr' : r' = []
      · rw [if_pos hr', hstable [a]]
        rw [hr'] at hsrc
        exact hsrc
      · rw [if_neg hr']
        have hdira : isDirFS fsCur (s ++ [a]) = true := by
          unfold isDirFS
          rw [hstable [a]]
          have hpfx2 : pfx (s ++ [a]) (s ++ a :: r') = true := by
            rw [pfx_append_cancel]
            simp [pfx]
          have hne2 : s ++ [a] ≠ s ++ a :: r' := by
            intro h
            have h2 := List.append_cancel_left h
            simp only [List.cons.injEq] at h2
            exact hr' h2.2.symm
          rw [wf_dir_of_pfx hwf hkne hpfx2 hne2]
          simp
        rw [if_pos hdira, show s ++ [a] ++ r' = s ++ (a :: r') from by simp,
          hstable (a :: r')]
        exact hsrc
  have hdne : d ++ r ≠ d := by
    intro h
    have h2 : d ++ r = d ++ [] := by rw [List.append_nil]; exact h
    exact hr (List.append_cancel_left h2)
  rw [lookup_copy_directory_contents fsCur s d (d ++ r) hnd hsd hds]
  unfold mergeLookupSpec
  rw [if_neg hsne, if_pos ⟨pfx_append d r, hdne⟩,
    show (d ++ r).drop d.length = r from by simp, hcv]

theorem merge_preserves_when_absent (fsCur fsOrig : FS) (s d r : Path)
    (hnd : KeysNodup fsCur) (hsd : pfx s d = false) (hds : pfx d s = false)
    (hr : r ≠ [])
    (hstable : ∀ x, lookupFS fsCur (s ++ x) = lookupFS fsOrig (s ++ x))
    (hnone : lookupFS fsOrig (s ++ r) = none) :
    lookupFS (copy_directory_contents fsCur s d) (d ++ r) = lookupFS fsCur (d ++ r) := by
  rw [lookup_copy_directory_contents fsCur s d (d ++ r) hnd hsd hds]
  unfold mergeLookupSpec
  by_cases hs : lookupFS fsCur s = none
  · rw [if_pos hs]
  · have hdne : d ++ r ≠ d := by
      intro h
      have h2 : d ++ r = d ++ [] := by rw [List.append_nil]; exact h
      exact hr (List.append_cancel_left h2)
    have hcv : copiedVal fsCur s r = none := by
      cases r with
      | nil => exact absurd rfl hr
      | cons a r' =>
        simp only [copiedVal]
        by_cases hr' : r' = []
        · rw [if_pos hr', hstable [a]]
          rw [hr'] at hnone
          exact hnone
        · rw [if_neg hr']
          by_cases hd2 : isDirFS fsCur (s ++ [a]) = true
          · rw [if_pos hd2, show s ++ [a] ++ r' = s ++ (a :: r') from by simp,
              hstable (a :: r')]
            exact hnone
          · rw [if_neg hd2]
    rw [if_neg hs, if_pos ⟨pfx_append d r, hdne⟩,
      show (d ++ r).drop d.length = r from by simp, hcv]

/-- Claim C5: for variant `giga` all four tiers are merged in order
(framework base, then server-common, then nano, then giga), and on a
path collision the giga tier's file wins over nano's, nano's over
server-common's, and server-common's over the framework base's. -/
theorem build_modpack_giga_precedence (fs : FS) (sd : Path) (cfg : Config) (r : Path)
    (hnd : KeysNodup fs) (hwf : WellFormedFS fs) (hr : r ≠ []) :
    build_modpack_merges fs sd cfg "giga" =
      copy_directory_contents
        (copy_directory_contents
          (copy_directory_contents
            (copy_directory_contents
              (makedirs (if existsFS fs (output_path sd cfg "giga") = true
                then eraseTree fs (output_path sd cfg "giga") else fs)
                (output_path sd cfg "giga"))
              (framework_src sd cfg "giga") (output_path sd cfg "giga"))
            (server_src sd cfg) (output_path sd cfg "giga"))
          (nano_src sd cfg) (output_path sd cfg "giga"))
        (giga_src sd cfg) (output_path sd cfg "giga") ∧
    (∀ c, lookupFS fs (giga_src sd cfg ++ r) = some (Node.file c) →
      lookupFS (build_modpack_merges fs sd cfg "giga")
        (output_path sd cfg "giga" ++ r) = some (Node.file c)) ∧
    (lookupFS fs (giga_src sd cfg ++ r) = none →
      ∀ c, lookupFS fs (nano_src sd cfg ++ r) = some (Node.file c) →
        lookupFS (build_modpack_merges fs sd cfg "giga")
          (output_path sd cfg "giga" ++ r) = some (Node.file c)) ∧
    (lookupFS fs (giga_src sd cfg ++ r) = none →
      lookupFS fs (nano_src sd cfg ++ r) = none →
      ∀ c, lookupFS fs (server_src sd cfg ++ r) = some (Node.file c) →
        lookupFS (build_modpack_merges fs sd cfg "giga")
          (output_path sd cfg "giga" ++ r) = some (Node.file c)) ∧
    (lookupFS fs (giga_src sd cfg ++ r) = none →
      lookupFS fs (nano_src sd cfg ++ r) = none →
      lookupFS fs (server_src sd cfg ++ r) = none →
      ∀ c, lookupFS fs (framework_src sd cfg "giga" ++ r) = some (Node.file c) →
        lookupFS (build_modpack_merges fs sd cfg "giga")
          (output_path sd cfg "giga" ++ r) = some (Node.file c)) := by
  have hdef : build_modpack_merges fs sd cfg "giga" =
      copy_directory_contents
        (copy_directory_contents
          (copy_directory_contents
            (copy_directory_contents
              (makedirs (if existsFS fs (output_path sd cfg "giga") = true
                then eraseTree fs (output_path sd cfg "giga") else fs)
                (output_path sd cfg "giga"))
              (framework_src sd cfg "giga") (output_path sd cfg "giga"))
            (server_src sd cfg) (output_path sd cfg "giga"))
          (nano_src sd cfg) (output_path sd cfg "giga"))
        (giga_src sd cfg) (output_path sd cfg "giga") := by
    simp [build_modpack_merges]
  obtain ⟨b1, hb1⟩ : ∃ b1, makedirs (if existsFS fs (output_path sd cfg "giga") = true
      then eraseTree fs (output_path sd cfg "giga") else fs)
      (output_path sd cfg "giga") = b1 := ⟨_, rfl⟩
  obtain ⟨m1, hm1⟩ : ∃ m1, copy_directory_contents b1 (framework_src sd cfg "giga")
      (output_path sd cfg "giga") = m1 := ⟨_, rfl⟩
  obtain ⟨m2, hm2⟩ : ∃ m2, copy_directory_contents m1 (server_src sd cfg)
      (output_path sd cfg "giga") = m2 := ⟨_, rfl⟩
  obtain ⟨m3, hm3⟩ : ∃ m3, copy_directory_contents m2 (nano_src sd cfg)
      (output_path sd cfg "giga") = m3 := ⟨_, rfl⟩
  have hfw1 : pfx (framework_src sd cfg "giga") (output_path sd cfg "giga") = false := by
    unfold framework_src output_path
    exact pfx_seg_ne (by decide)
  have hfw2 : pfx (output_path sd cfg "giga") (framework_src sd cfg "giga") = false := by
    unfold framework_src output_path
    exact pfx_seg_ne (by decide)
  have hsv1 : pfx (server_src sd cfg) (output_path sd cfg "giga") = false := by
    unfold server_src output_path
    exact pfx_seg_ne (by decide)
  have hsv2 : pfx (output_path sd cfg "giga") (server_src sd cfg) = false := by
    unfold server_src output_path
    exact pfx_seg_ne (by decide)
  have hnn1 : pfx (nano_src sd cfg) (output_path sd cfg "giga") = false := by
    unfold nano_src output_path
    exact pfx_seg_ne (by decide)
  have hnn2 : pfx (output_path sd cfg "giga") (nano_src sd cfg) = false := by
    unfold nano_src output_path
    exact pfx_seg_ne (by decide)
  have hgg1 : pfx (giga_src sd cfg) (output_path sd cfg "giga") = false := by
    unfold giga_src output_path
    exact pfx_seg_ne (by decide)
  have hgg2 : pfx (output_path sd cfg "giga") (giga_src sd cfg) = false := by
    unfold giga_src output_path
    exact pfx_seg_ne (by decide)
  have hfwx : ∀ x, pfx (output_path sd cfg "giga") (framework_src sd cfg "giga" ++ x) = false ∧
      pfx (framework_src sd cfg "giga" ++ x) (output_path sd cfg "giga") = false := by
    intro x
    unfold framework_src output_path
    rw [shape_append]
    exact ⟨pfx_seg_ne (by decide), pfx_seg_ne (by decide)⟩
  have hsvx : ∀ x, pfx (output_path sd cfg "giga") (server_src sd cfg ++ x) = false ∧
      pfx (server_src sd cfg ++ x) (output_path sd cfg "giga") = false := by
    intro x
    unfold server_src output_path
    rw [shape_append]
    exact ⟨pfx_seg_ne (by decide), pfx_seg_ne (by decide)⟩
  have hnnx : ∀ x, pfx (output_path sd cfg "giga") (nano_src sd cfg ++ x) = false ∧
      pfx (nano_src sd cfg ++ x) (output_path sd cfg "giga") = false := by
    intro x
    unfold nano_src output_path
    rw [shape_append]
    exact ⟨pfx_seg_ne (by decide), pfx_seg_ne (by decide)⟩
  have hggx : ∀ x, pfx (output_path sd cfg "giga") (giga_src sd cfg ++ x) = false ∧
      pfx (giga_src sd cfg ++ x) (output_path sd cfg "giga") = false := by
    intro x
    unfold giga_src output_path
    rw [shape_append]
    exact ⟨pfx_seg_ne (by decide), pfx_seg_ne (by decide)⟩
  have hndb1 : KeysNodup b1 := by
    rw [← hb1]
    refine keysNodup_makedirs _ _ ?_
    by_cases he : existsFS fs (output_path sd cfg "giga") = true
    · rw [if_pos he]
      exact keysNodup_eraseTree fs _ hnd
    · rw [if_neg he]
      exact hnd
  have hndm1 : KeysNodup m1 := by
    rw [← hm1]
    exact keysNodup_copy_directory_contents b1 _ _ hndb1
  have hndm2 : KeysNodup m2 := by
    rw [← hm2]
    exact keysNodup_copy_directory_contents m1 _ _ hndm1
  have hndm3 : KeysNodup m3 := by
    rw [← hm3]
    exact keysNodup_copy_directory_contents m2 _ _ hndm2
  have hstab_b1 : ∀ q, pfx (output_path sd cfg "giga") q = false →
      pfx q (output_path sd cfg "giga") = false → lookupFS b1 q = lookupFS fs q := by
    intro q h1 h2
    rw [← hb1, lookup_makedirs,
      if_neg (fun hc => by rw [h2] at hc; exact Bool.noConfusion hc.1)]
    by_cases he : existsFS fs (output_path sd cfg "giga") = true
    · rw [if_pos he, lookup_eraseTree_nopfx _ _ _ h1]
    · rw [if_neg he]
  have hstab_m1 : ∀ q, pfx (output_path sd cfg "giga") q = false →
      pfx q (output_path sd cfg "giga") = false → lookupFS m1 q = lookupFS fs q := by
    intro q h1 h2
    rw [← hm1, merge_frame_outside b1 _ _ q hndb1 hfw1 hfw2 h1 h2]
    exact hstab_b1 q h1 h2
  have hstab_m2 : ∀ q, pfx (output_path sd cfg "giga") q = false →
      pfx q (output_path sd cfg "giga") = false → lookupFS m2 q = lookupFS fs q := by
    intro q h1 h2
    rw [← hm2, merge_frame_outside m1 _ _ q hndm1 hsv1 hsv2 h1 h2]
    exact hstab_m1 q h1 h2
  have hstab_m3 : ∀ q, pfx (output_path sd cfg "giga") q = false →
      pfx q (output_path sd cfg "giga") = false → lookupFS m3 q = lookupFS fs q := by
    intro q h1 h2
    rw [← hm3, merge_frame_outside m2 _ _ q hndm2 hnn1 hnn2 h1 h2]
    exact hstab_m2 q h1 h2
  have hrw : ∀ p, lookupFS (build_modpack_merges fs sd cfg "giga") p =
      lookupFS (copy_directory_contents m3 (giga_src sd cfg) (output_path sd cfg "giga")) p := by
    intro p
    rw [hdef, hb1, hm1, hm2, hm3]
  refine ⟨hdef, ?_, ?_, ?_, ?_⟩
  · intro c hsrc
    rw [hrw]
    exact merge_copies_file m3 fs _ _ r c hndm3 hgg1 hgg2 hr
      (fun x => hstab_m3 _ (hggx x).1 (hggx x).2) hwf hsrc
  · intro hgnone c hsrc
    rw [hrw, merge_preserves_when_absent m3 fs _ _ r hndm3 hgg1 hgg2 hr
      (fun x => hstab_m3 _ (hggx x).1 (hggx x).2) hgnone, ← hm3]
    exact merge_copies_file m2 fs _ _ r c hndm2 hnn1 hnn2 hr
      (fun x => hstab_m2 _ (hnnx x).1 (hnnx x).2) hwf hsrc
  · intro hgnone hnnone c hsrc
    rw [hrw, merge_preserves_when_absent m3 fs _ _ r hndm3 hgg1 hgg2 hr
      (fun x => hstab_m3 _ (hggx x).1 (hggx x).2) hgnone, ← hm3,
      merge_preserves_when_absent m2 fs _ _ r hndm2 hnn1 hnn2 hr
      (fun x => hstab_m2 _ (hnnx x).1 (hnnx x).2) hnnone, ← hm2]
    exact merge_copies_file m1 fs _ _ r c hndm1 hsv1 hsv2 hr
      (fun x => hstab_m1 _ (hsvx x).1 (hsvx x).2) hwf hsrc
  · intro hgnone hnnone hsvnone c hsrc
    rw [hrw, merge_preserves_when_absent m3 fs _ _ r hndm3 hgg1 hgg2 hr
      (fun x => hstab_m3 _ (hggx x).1 (hggx x).2) hgnone, ← hm3,
      merge_preserves_when_absent m2 fs _ _ r hndm2 hnn1 hnn2 hr
      (fun x => hstab_m2 _ (hnnx x).1 (hnnx x).2) hnnone, ← hm2,
      merge_preserves_when_absent m1 fs _ _ r hndm1 hsv1 hsv2 hr
      (fun x => hstab_m1 _ (hsvx x).1 (hsvx x).2) hsvnone, ← hm1]
    exact merge_copies_file b1 fs _ _ r c hndb1 hfw1 hfw2 hr
      (fun x => hstab_b1 _ (hfwx x).1 (hfwx x).2) hwf hsrc

/-- Claim C5 witness: with each of the three mod tiers providing
`common.txt`, the giga build's output holds the giga tier's copy. -/
theorem build_modpack_giga_precedence_witness :
    KeysNodup [((([] : Path)), Node.dir), (["mod"], Node.dir), (["mod", "forge"], Node.dir),
        (["mod", "forge", "all"], Node.dir), (["mod", "forge", "all", "giga"], Node.dir),
        (["mod", "forge", "all", "giga", "common.txt"], Node.file "G"),
        (["mod", "forge", "all", "nano"], Node.dir),
        (["mod", "forge", "all", "nano", "common.txt"], Node.file "N"),
        (["mod", "forge", "all", "server"], Node.dir),
        (["mod", "forge", "all", "server", "common.txt"], Node.file "S")] ∧
    WellFormedFS [((([] : Path)), Node.dir), (["mod"], Node.dir), (["mod", "forge"], Node.dir),
        (["mod", "forge", "all"], Node.dir), (["mod", "forge", "all", "giga"], Node.dir),
        (["mod", "forge", "all", "giga", "common.txt"], Node.file "G"),
        (["mod", "forge", "all", "nano"], Node.dir),
        (["mod", "forge", "all", "nano", "common.txt"], Node.file "N"),
        (["mod", "forge", "all", "server"], Node.dir),
        (["mod", "forge", "all", "server", "common.txt"], Node.file "S")] ∧
    lookupFS (build_modpack_merges
        [((([] : Path)), Node.dir), (["mod"], Node.dir), (["mod", "forge"], Node.dir),
          (["mod", "forge", "all"], Node.dir), (["mod", "forge", "all", "giga"], Node.dir),
          (["mod", "forge", "all", "giga", "common.txt"], Node.file "G"),
          (["mod", "forge", "all", "nano"], Node.dir),
          (["mod", "forge", "all", "nano", "common.txt"], Node.file "N"),
          (["mod", "forge", "all", "server"], Node.dir),
          (["mod", "forge", "all", "server", "common.txt"], Node.file "S")]
        [] (Config.mk "1.20.1" "forge") "giga")
      (output_path [] (Config.mk "1.20.1" "forge") "giga" ++ ["common.txt"]) =
      some (Node.file "G") :=
  ⟨by decide, by decide,
    (build_modpack_giga_precedence
      [((([] : Path)), Node.dir), (["mod"], Node.dir), (["mod", "forge"], Node.dir),
        (["mod", "forge", "all"], Node.dir), (["mod", "forge", "all", "giga"], Node.dir),
        (["mod", "forge", "all", "giga", "common.txt"], Node.file "G"),
        (["mod", "forge", "all", "nano"], Node.dir),
        (["mod", "forge", "all", "nano", "common.txt"], Node.file "N"),
        (["mod", "forge", "all", "server"], Node.dir),
        (["mod", "forge", "all", "server", "common.txt"], Node.file "S")]
      [] (Config.mk "1.20.1" "forge") ["common.txt"]
      (by decide) (by decide) (by decide)).2.1 "G" (by decide)⟩

/-- Claim C6: for variant `server` only the framework and common-server
tiers are merged — the nano and giga branches are not taken — and a path
absent from both merged tiers is absent from the server output tree, so
no nano-only or giga-only file can appear there. -/
theorem build_modpack_server_only (fs : FS) (sd : Path) (cfg : Config) (r : Path)
    (hnd : KeysNodup fs) (hwf : WellFormedFS fs) (hr : r ≠ [])
    (hfw : lookupFS fs (framework_src sd cfg "server" ++ r) = none)
    (hsv : lookupFS fs (server_src sd cfg ++ r) = none) :
    build_modpack_merges fs sd cfg "server" =
      copy_directory_contents
        (copy_directory_contents
          (makedirs (if existsFS fs (output_path sd cfg "server") = true
            then eraseTree fs (output_path sd cfg "server") else fs)
            (output_path sd cfg "server"))
          (framework_src sd cfg "server") (output_path sd cfg "server"))
        (server_src sd cfg) (output_path sd cfg "server") ∧
    lookupFS (build_modpack_merges fs sd cfg "server")
      (output_path sd cfg "server" ++ r) = none := by
  have hdef : build_modpack_merges fs sd cfg "server" =
      copy_directory_contents
        (copy_directory_contents
          (makedirs (if existsFS fs (output_path sd cfg "server") = true
            then eraseTree fs (output_path sd cfg "server") else fs)
            (output_path sd cfg "server"))
          (framework_src sd cfg "server") (output_path sd cfg "server"))
        (server_src sd cfg) (output_path sd cfg "server") := by
    simp [build_modpack_merges]
  obtain ⟨b1, hb1⟩ : ∃ b1, makedirs (if existsFS fs (output_path sd cfg "server") = true
      then eraseTree fs (output_path sd cfg "server") else fs)
      (output_path sd cfg "server") = b1 := ⟨_, rfl⟩
  obtain ⟨m1, hm1⟩ : ∃ m1, copy_directory_contents b1 (framework_src sd cfg "server")
      (output_path sd cfg "server") = m1 := ⟨_, rfl⟩
  have hfw1 : pfx (framework_src sd cfg "server") (output_path sd cfg "server") = false := by
    unfold framework_src output_path
    exact pfx_seg_ne (by decide)
  have hfw2 : pfx (output_path sd cfg "server") (framework_src sd cfg "server") = false := by
    unfold framework_src output_path
    exact pfx_seg_ne (by decide)
  have hsv1 : pfx (server_src sd cfg) (output_path sd cfg "server") = false := by
    unfold server_src output_path
    exact pfx_seg_ne (by decide)
  have hsv2 : pfx (output_path sd cfg "server") (server_src sd cfg) = false := by
    unfold server_src output_path
    exact pfx_seg_ne (by decide)
  have hfwx : ∀ x, pfx (output_path sd cfg "server") (framework_src sd cfg "server" ++ x) = false ∧
      pfx (framework_src sd cfg "server" ++ x) (output_path sd cfg "server") = false := by
    intro x
    unfold framework_src output_path
    rw [shape_append]
    exact ⟨pfx_seg_ne (by decide), pfx_seg_ne (by decide)⟩
  have hsvx : ∀ x, pfx (output_path sd cfg "server") (server_src sd cfg ++ x) = false ∧
      pfx (server_src sd cfg ++ x) (output_path sd cfg "server") = false := by
    intro x
    unfold server_src output_path
    rw [shape_append]
    exact ⟨pfx_seg_ne (by decide), pfx_seg_ne (by decide)⟩
  have hndb1 : KeysNodup b1 := by
    rw [← hb1]
    refine keysNodup_makedirs _ _ ?_
    by_cases he : existsFS fs (output_path sd cfg "server") = true
    · rw [if_pos he]
      exact keysNodup_eraseTree fs _ hnd
    · rw [if_neg he]
      exact hnd
  have hndm1 : KeysNodup m1 := by
    rw [← hm1]
    exact keysNodup_copy_directory_contents b1 _ _ hndb1
  have hstab_b1 : ∀ q, pfx (output_path sd cfg "server") q = false →
      pfx q (output_path sd cfg "server") = false → lookupFS b1 q = lookupFS fs q := by
    intro q h1 h2
    rw [← hb1, lookup_makedirs,
      if_neg (fun hc => by rw [h2] at hc; exact Bool.noConfusion hc.1)]
    by_cases he : existsFS fs (output_path sd cfg "server") = true
    · rw [if_pos he, lookup_eraseTree_nopfx _ _ _ h1]
    · rw [if_neg he]
  have hstab_m1 : ∀ q, pfx (output_path sd cfg "server") q = false →
      pfx q (output_path sd cfg "server") = false → lookupFS m1 q = lookupFS fs q := by
    intro q h1 h2
    rw [← hm1, merge_frame_outside b1 _ _ q hndb1 hfw1 hfw2 h1 h2]
    exact hstab_b1 q h1 h2
  have houtne : output_path sd cfg "server" ≠ output_path sd cfg "server" ++ r := by
    intro h
    have h2 : output_path sd cfg "server" ++ [] = output_path sd cfg "server" ++ r := by
      rw [List.append_nil]
      exact h
    exact hr (List.append_cancel_left h2).symm
  have hroutne : pfx (output_path sd cfg "server" ++ r) (output_path sd cfg "server") = false := by
    refine bool_eq_false_of_not (fun h => ?_)
    have hle := pfx_length_le h
    simp only [List.length_append] at hle
    exact hr (List.eq_nil_of_length_eq_zero (by omega))
  have hb1out : lookupFS b1 (output_path sd cfg "server" ++ r) = none := by
    rw [← hb1, lookup_makedirs,
      if_neg (fun hc => by rw [hroutne] at hc; exact Bool.noConfusion hc.1)]
    by_cases he : existsFS fs (output_path sd cfg "server") = true
    · rw [if_pos he, lookup_eraseTree, if_pos (pfx_append _ r)]
    · rw [if_neg he]
      rcases hl : lookupFS fs (output_path sd cfg "server" ++ r) with _ | n
      · rfl
      · exfalso
        have houtdir : lookupFS fs (output_path sd cfg "server") = some Node.dir :=
          wf_dir_of_pfx hwf (by rw [hl]; simp) (pfx_append _ r) houtne
        unfold existsFS at he
        rw [houtdir] at he
        simp at he
  refine ⟨hdef, ?_⟩
  rw [hdef, hb1, hm1,
    merge_preserves_when_absent m1 fs _ _ r hndm1 hsv1 hsv2 hr
      (fun x => hstab_m1 _ (hsvx x).1 (hsvx x).2) hsv, ← hm1,
    merge_preserves_when_absent b1 fs _ _ r hndb1 hfw1 hfw2 hr
      (fun x => hstab_b1 _ (hfwx x).1 (hfwx x).2) hfw]
  exact hb1out

/-- Claim C6 witness: a file present only in the nano tier does not
appear in the server build's output tree. -/
theorem build_modpack_server_only_witness :
    KeysNodup [((([] : Path)), Node.dir), (["mod"], Node.dir), (["mod", "forge"], Node.dir),
        (["mod", "forge", "all"], Node.dir), (["mod", "forge", "all", "nano"], Node.dir),
        (["mod", "forge", "all", "nano", "nanoonly.txt"], Node.file "N")] ∧
    lookupFS [((([] : Path)), Node.dir), (["mod"], Node.dir), (["mod", "forge"], Node.dir),
        (["mod", "forge", "all"], Node.dir), (["mod", "forge", "all", "nano"], Node.dir),
        (["mod", "forge", "all", "nano", "nanoonly.txt"], Node.file "N")]
      (framework_src [] (Config.mk "1.20.1" "forge") "server" ++ ["nanoonly.txt"]) = none ∧
    lookupFS (build_modpack_merges
        [((([] : Path)), Node.dir), (["mod"], Node.dir), (["mod", "forge"], Node.dir),
          (["mod", "forge", "all"], Node.dir), (["mod", "forge", "all", "nano"], Node.dir),
          (["mod", "forge", "all", "nano", "nanoonly.txt"], Node.file "N")]
        [] (Config.mk "1.20.1" "forge") "server")
      (output_path [] (Config.mk "1.20.1" "forge") "server" ++ ["nanoonly.txt"]) = none :=
  ⟨by decide, by decide,
    (build_modpack_server_only
      [((([] : Path)), Node.dir), (["mod"], Node.dir), (["mod", "forge"], Node.dir),
        (["mod", "forge", "all"], Node.dir), (["mod", "forge", "all", "nano"], Node.dir),
        (["mod", "forge", "all", "nano", "nanoonly.txt"], Node.file "N")]
      [] (Config.mk "1.20.1" "forge") ["nanoonly.txt"]
      (by decide) (by decide) (by decide) (by decide) (by decide)).2⟩

/-! ### Version stamping: lemmas and claim -/

theorem not_eq_true_of_false {b : Bool} (h : b = false) : ¬ b = true := by
  intro h2
  rw [h] at h2
  exact Bool.noConfusion h2

theorem pfx_extend {α : Type} [DecidableEq α] {a b : List α} (t : List α)
    (h : pfx a b = true) : pfx a (b ++ t) = true := by
  rcases (pfx_iff_append a b).mp h with ⟨u, rfl⟩
  rw [List.append_assoc]
  exact pfx_append a (u ++ t)

theorem pfx_nil_of_ne {old : List Char} (hold : old ≠ []) : pfx old [] = false := by
  cases old with
  | nil => exact absurd rfl hold
  | cons c w => rfl

theorem splitOnL_nil (old : List Char) : splitOnL old [] = [[]] := by
  rw [splitOnL.eq_def]

theorem splitOnL_ne_nil (old s : List Char) : splitOnL old s ≠ [] := by
  cases s with
  | nil =>
    rw [splitOnL_nil]
    simp
  | cons c rest =>
    rw [splitOnL.eq_def]
    simp only []
    by_cases h1 : old = []
    · rw [dif_pos h1]
      simp
    · rw [dif_neg h1]
      by_cases h2 : pfx old (c :: rest) = true
      · rw [if_pos h2]
        simp
      · rw [if_neg h2]
        rcases splitOnL old rest with _ | ⟨p, ps⟩ <;> simp

theorem replaceChars_nil (old new : List Char) (hold : old ≠ []) :
    replaceChars old new [] = [] := by
  rw [replaceChars.eq_def]
  simp only []
  rw [if_neg hold]

theorem joinWith_single (sep p : List Char) : joinWith sep [p] = p := rfl

theorem joinWith_cons2 (sep p p2 : List Char) (pp : List (List Char)) :
    joinWith sep (p :: p2 :: pp) = p ++ sep ++ joinWith sep (p2 :: pp) := rfl

theorem joinWith_cons_of_ne_nil (sep : List Char) (ps : List (List Char)) (hps : ps ≠ []) :
    joinWith sep ([] :: ps) = sep ++ joinWith sep ps := by
  cases ps with
  | nil => exact absurd rfl hps
  | cons p pp =>
    rw [joinWith_cons2]
    rfl

theorem replace_split_join (old new : List Char) (hold : old ≠ []) :
    ∀ (n : Nat) (s : List Char), s.length ≤ n →
      joinWith old (splitOnL old s) = s ∧
      replaceChars old new s = joinWith new (splitOnL old s) ∧
      ∀ part ∈ splitOnL old s, occursIn old part = false := by
  intro n
  induction n with
  | zero =>
    intro s hs
    have hsnil : s = [] := List.eq_nil_of_length_eq_zero (Nat.le_zero.mp hs)
    subst hsnil
    rw [splitOnL_nil old, replaceChars_nil old new hold]
    refine ⟨rfl, rfl, ?_⟩
    intro part hp
    rcases List.mem_singleton.mp hp with rfl
    exact pfx_nil_of_ne hold
  | succ n ih =>
    intro s hs
    cases s with
    | nil =>
      rw [splitOnL_nil old, replaceChars_nil old new hold]
      refine ⟨rfl, rfl, ?_⟩
      intro part hp
      rcases List.mem_singleton.mp hp with rfl
      exact pfx_nil_of_ne hold
    | cons c rest =>
      by_cases hpre : pfx old (c :: rest) = true
      · have hsplit : splitOnL old (c :: rest) =
            [] :: splitOnL old ((c :: rest).drop old.length) := by
          rw [splitOnL.eq_def]
          simp only []
          rw [dif_neg hold, if_pos hpre]
        have hrep : replaceChars old new (c :: rest) =
            new ++ replaceChars old new ((c :: rest).drop old.length) := by
          rw [replaceChars.eq_def]
          simp only []
          rw [dif_neg hold, if_pos hpre]
        have hlen : ((c :: rest).drop old.length).length ≤ n := by
          have h2 : 0 < old.length := List.length_pos.mpr hold
          simp only [List.length_drop, List.length_cons]
          simp only [List.length_cons] at hs
          omega
        obtain ⟨ih1, ih2, ih3⟩ := ih ((c :: rest).drop old.length) hlen
        refine ⟨?_, ?_, ?_⟩
        · rw [hsplit, joinWith_cons_of_ne_nil old _ (splitOnL_ne_nil old _), ih1]
          exact append_drop_of_pfx hpre
        · rw [hrep, hsplit, joinWith_cons_of_ne_nil new _ (splitOnL_ne_nil old _), ih2]
        · rw [hsplit]
          intro part hp
          rcases List.mem_cons.mp hp with rfl | hp2
          · exact pfx_nil_of_ne hold
          · exact ih3 part hp2
      · have hlen : rest.length ≤ n := by
          simp only [List.length_cons] at hs
          omega
        obtain ⟨ih1, ih2, ih3⟩ := ih rest hlen
        rcases hsp : splitOnL old rest with _ | ⟨p, ps⟩
        · exact absurd hsp (splitOnL_ne_nil old rest)
        · rw [hsp] at ih1 ih2 ih3
          have hsplit : splitOnL old (c :: rest) = (c :: p) :: ps := by
            rw [splitOnL.eq_def]
            simp only []
            rw [dif_neg hold, if_neg hpre]
            show (match splitOnL old rest with
              | [] => [[c]]
              | p :: ps => (c :: p) :: ps) = (c :: p) :: ps
            rw [hsp]
          have hrep : replaceChars old new (c :: rest) = c :: replaceChars old new rest := by
            rw [replaceChars.eq_def]
            simp only []
            rw [dif_neg hold, if_neg hpre]
          have hp_pfx_rest : ∃ t, rest = p ++ t := by
            cases ps with
            | nil =>
              refine ⟨[], ?_⟩
              rw [← ih1, joinWith_single, List.append_nil]
            | cons p2 pp =>
              refine ⟨old ++ joinWith old (p2 :: pp), ?_⟩
              rw [← ih1, joinWith_cons2, List.append_assoc]
          refine ⟨?_, ?_, ?_⟩
          · rw [hsplit]
            cases ps with
            | nil =>
              rw [joinWith_single]
              have hpr : p = rest := by rw [← ih1, joinWith_single]
              rw [hpr]
            | cons p2 pp =>
              rw [joinWith_cons2]
              have h2 : p ++ old ++ joinWith old (p2 :: pp) = rest := by
                rw [← ih1, joinWith_cons2]
              rw [← h2]
              simp
          · rw [hrep, ih2, hsplit]
            cases ps with
            | nil => rw [joinWith_single, joinWith_single]
            | cons p2 pp =>
              rw [joinWith_cons2, joinWith_cons2]
              simp
          · rw [hsplit]
            intro part hp
            rcases List.mem_cons.mp hp with rfl | hp2
            · have hop : occursIn old p = false := ih3 p (List.mem_cons_self p ps)
              have hpf : pfx old (c :: p) = false := by
                refine bool_eq_false_of_not (fun h => ?_)
                rcases hp_pfx_rest with ⟨t, ht⟩
                have : pfx old (c :: rest) = true := by
                  rw [ht]
                  show pfx old ((c :: p) ++ t) = true
                  exact pfx_extend t h
                exact hpre this
              show (pfx old (c :: p) || occursIn old p) = false
              rw [hpf, hop]
              rfl
            · exact ih3 part (List.mem_cons_of_mem p hp2)

theorem splitOnL_of_no_occur (old : List Char) (hold : old ≠ []) :
    ∀ s, occursIn old s = false → splitOnL old s = [s] := by
  intro s
  induction s with
  | nil =>
    intro _
    exact splitOnL_nil old
  | cons c rest ih =>
    intro h
    have h2 : pfx old (c :: rest) = false ∧ occursIn old rest = false := by
      have := h
      unfold occursIn at this
      exact Bool.or_eq_false_iff.mp this
    rw [splitOnL.eq_def]
    simp only []
    rw [dif_neg hold, if_neg (not_eq_true_of_false h2.1)]
    show (match splitOnL old rest with
      | [] => [[c]]
      | p :: ps => (c :: p) :: ps) = [c :: rest]
    rw [ih h2.2]

/-- Claim C7: version stamping with a nonempty token.  A missing path is
a no-op; a present file gets exactly its content rewritten (no other
path changes); content without an occurrence of the token is unchanged;
and in general the old content is the token-joined concatenation of
token-free pieces, while the new content joins the same pieces with the
replacement string — i.e. every literal occurrence is replaced and all
other text is kept. -/
theorem replace_in_file_spec (fs : FS) (p : Path) (old new : String)
    (hold : old ≠ "") :
    (lookupFS fs p = none → replace_in_file fs p old new = fs) ∧
    (∀ c, lookupFS fs p = some (Node.file c) →
      lookupFS (replace_in_file fs p old new) p =
        some (Node.file (replaceStr old new c)) ∧
      (∀ q, q ≠ p → lookupFS (replace_in_file fs p old new) q = lookupFS fs q)) ∧
    (∀ c : String, occursIn old.data c.data = false → replaceStr old new c = c) ∧
    (∀ c : String, joinWith old.data (splitOnL old.data c.data) = c.data ∧
      (replaceStr old new c).data = joinWith new.data (splitOnL old.data c.data) ∧
      ∀ part ∈ splitOnL old.data c.data, occursIn old.data part = false) := by
  have holdD : old.data ≠ [] := by
    intro h
    refine hold ?_
    cases old with
    | mk d =>
      simp only at h
      rw [h]
  refine ⟨?_, ?_, ?_, ?_⟩
  · intro h
    unfold replace_in_file
    rw [h]
  · intro c hc
    have hdef : replace_in_file fs p old new =
        setNode fs p (Node.file (replaceStr old new c)) := by
      unfold replace_in_file
      rw [hc]
    constructor
    · rw [hdef, lookup_setNode, if_pos rfl]
    · intro q hq
      rw [hdef, lookup_setNode, if_neg hq]
  · intro c hocc
    obtain ⟨_, h2, _⟩ := replace_split_join old.data new.data holdD c.data.length c.data le_rfl
    unfold replaceStr
    rw [h2, splitOnL_of_no_occur old.data holdD c.data hocc]
    show String.mk c.data = c
    cases c with
    | mk d => rfl
  · intro c
    obtain ⟨h1, h2, h3⟩ := replace_split_join old.data new.data holdD c.data.length c.data le_rfl
    exact ⟨h1, h2, h3⟩

/-- Claim C7 witness: stamping a `pack.toml` whose content mentions the
placeholder twice, at a concrete filesystem and token. -/
theorem replace_in_file_spec_witness :
    ("noVersion" : String) ≠ "" ∧
    lookupFS [((["pack.toml"] : Path), Node.file "version = noVersion # noVersion")]
      ["pack.toml"] = some (Node.file "version = noVersion # noVersion") ∧
    lookupFS (replace_in_file
        [((["pack.toml"] : Path), Node.file "version = noVersion # noVersion")]
        ["pack.toml"] "noVersion" "3.2.0")
      ["pack.toml"] =
      some (Node.file (replaceStr "noVersion" "3.2.0" "version = noVersion # noVersion")) :=
  ⟨by decide, by decide,
    ((replace_in_file_spec
        [((["pack.toml"] : Path), Node.file "version = noVersion # noVersion")]
        ["pack.toml"] "noVersion" "3.2.0" (by decide)).2.1
      "version = noVersion # noVersion" (by decide)).1⟩

/-! ### Repository sync: claim C2 -/

/-- Claim C2 counterexample: when the git command cannot be launched at
all (an `OSError`, e.g. git missing from PATH — a situation
`check_dependencies` explicitly anticipates with a mere warning),
`update_pack_framework` raises to its caller instead of swallowing the
failure: only `subprocess.CalledProcessError` is caught. -/
theorem update_pack_framework_raises_counterexample :
    (update_pack_framework (fun _ => RunOutcome.launchFailure) [] []).2 = false := by
  decide

/-- Claim C2 (amended): exactly one of pull/clone is launched per call —
pull iff the framework directory exists, clone otherwise — and the call
returns normally iff the launched command's outcome is not a launch
failure: a nonzero exit is reported and swallowed, while a failure to
launch the process propagates to the caller. -/
theorem update_pack_framework_spec (git : GitCmd → RunOutcome) (fs : FS) (sd : Path) :
    (update_pack_framework git fs sd).1.length = 1 ∧
    (existsFS fs (sd ++ ["framework"]) = true →
      (update_pack_framework git fs sd).1 = [GitCmd.pull (sd ++ ["framework"])]) ∧
    (existsFS fs (sd ++ ["framework"]) = false →
      (update_pack_framework git fs sd).1 =
        [GitCmd.clone "https://github.com/Den4enko/PackFramework" "framework" sd]) ∧
    (∀ c ∈ (update_pack_framework git fs sd).1,
      ((update_pack_framework git fs sd).2 = true ↔ git c ≠ RunOutcome.launchFailure)) := by
  unfold update_pack_framework
  by_cases he : existsFS fs (sd ++ ["framework"]) = true
  · rw [if_pos he]
    rcases hg : git (GitCmd.pull (sd ++ ["framework"])) with _ | _ | _ <;>
      refine ⟨rfl, fun _ => rfl,
        fun h => absurd he (by rw [h]; exact fun hh => Bool.noConfusion hh), ?_⟩ <;>
      (intro c hc
       rw [List.mem_singleton] at hc
       subst hc
       rw [hg]) <;> simp
  · rw [if_neg he]
    rcases hg : git (GitCmd.clone "https://github.com/Den4enko/PackFramework"
        "framework" sd) with _ | _ | _ <;>
      refine ⟨rfl, fun h => absurd h he, fun _ => rfl, ?_⟩ <;>
      (intro c hc
       rw [List.mem_singleton] at hc
       subst hc
       rw [hg]) <;> simp

/-- Claim C2 witness: with the framework folder absent and a git that
exits normally, exactly the clone command runs and nothing is raised. -/
theorem update_pack_framework_spec_witness :
    existsFS [] ([] ++ ["framework"]) = false ∧
    (update_pack_framework (fun _ => RunOutcome.success) [] []).1 =
      [GitCmd.clone "https://github.com/Den4enko/PackFramework" "framework" []] ∧
    (update_pack_framework (fun _ => RunOutcome.success) [] []).2 = true :=
  ⟨by decide,
    (update_pack_framework_spec (fun _ => RunOutcome.success) [] []).2.2.1 (by decide),
    by decide⟩

/-! ### Release promotion: claim C10 -/

/-- Claim C10: when the beta directory does not exist,
`copy_beta_to_release` has already deleted any prior release tree and
recreated an empty release directory by the time `os.listdir(beta)`
raises, and that exception propagates (nothing catches it): the flag is
`false`, the release root is a directory, and nothing remains below it. -/
theorem copy_beta_to_release_missing_beta (fs : FS) (sd : Path)
    (hwf : WellFormedFS fs)
    (hbeta : lookupFS fs (sd ++ ["beta"]) = none) :
    (copy_beta_to_release fs sd).2 = false ∧
    lookupFS (copy_beta_to_release fs sd).1 (sd ++ ["release"]) = some Node.dir ∧
    (∀ q, pfx (sd ++ ["release"]) q = true → q ≠ sd ++ ["release"] →
      lookupFS (copy_beta_to_release fs sd).1 q = none) := by
  have hbr : pfx (sd ++ ["beta"]) (sd ++ ["release"]) = false := pfx_seg_ne (by decide)
  have hfs0beta : lookupFS (if existsFS fs (sd ++ ["release"]) = true
      then eraseTree fs (sd ++ ["release"]) else fs) (sd ++ ["beta"]) = none := by
    by_cases he : existsFS fs (sd ++ ["release"]) = true
    · rw [if_pos he]
      exact lookup_eraseTree_none _ _ _ hbeta
    · rw [if_neg he]
      exact hbeta
  have hb1beta : lookupFS (makedirs (if existsFS fs (sd ++ ["release"]) = true
      then eraseTree fs (sd ++ ["release"]) else fs) (sd ++ ["release"]))
      (sd ++ ["beta"]) = none := by
    rw [lookup_makedirs, if_neg (fun hc => by rw [hbr] at hc; exact Bool.noConfusion hc.1)]
    exact hfs0beta
  have hnodir : isDirFS (makedirs (if existsFS fs (sd ++ ["release"]) = true
      then eraseTree fs (sd ++ ["release"]) else fs) (sd ++ ["release"]))
      (sd ++ ["beta"]) = false := by
    unfold isDirFS
    rw [hb1beta]
    rfl
  have hres : copy_beta_to_release fs sd =
      (makedirs (if existsFS fs (sd ++ ["release"]) = true
        then eraseTree fs (sd ++ ["release"]) else fs) (sd ++ ["release"]), false) := by
    unfold copy_beta_to_release
    rw [if_neg (fun hc => by rw [hnodir] at hc; exact Bool.noConfusion hc)]
  rw [hres]
  have hfs0rel : lookupFS (if existsFS fs (sd ++ ["release"]) = true
      then eraseTree fs (sd ++ ["release"]) else fs) (sd ++ ["release"]) = none := by
    by_cases he : existsFS fs (sd ++ ["release"]) = true
    · rw [if_pos he, lookup_eraseTree, if_pos (pfx_refl _)]
    · rw [if_neg he]
      unfold existsFS at he
      rcases hl : lookupFS fs (sd ++ ["release"]) with _ | n
      · rfl
      · exact absurd (by rw [hl]; rfl) he
  refine ⟨rfl, ?_, ?_⟩
  · rw [lookup_makedirs, if_pos ⟨pfx_refl _, hfs0rel⟩]
  · intro q hq hqne
    have hnq : pfx q (sd ++ ["release"]) = false := by
      refine bool_eq_false_of_not (fun h => ?_)
      exact hqne (pfx_antisymm h hq)
    rw [lookup_makedirs, if_neg (fun hc => by rw [hnq] at hc; exact Bool.noConfusion hc.1)]
    by_cases he : existsFS fs (sd ++ ["release"]) = true
    · rw [if_pos he, lookup_eraseTree, if_pos hq]
    · rw [if_neg he]
      unfold existsFS at he
      rcases hl : lookupFS fs q with _ | n
      · rfl
      · exfalso
        have hreldir : lookupFS fs (sd ++ ["release"]) = some Node.dir :=
          wf_dir_of_pfx hwf (by rw [hl]; simp) hq (fun h => hqne h.symm)
        rw [hreldir] at he
        exact he rfl

/-- Claim C10 witness: a filesystem with an old release tree and no beta
directory — the release is wiped and recreated empty, and the call
raises. -/
theorem copy_beta_to_release_missing_beta_witness :
    WellFormedFS [((([] : Path)), Node.dir), (["release"], Node.dir),
        (["release", "old.txt"], Node.file "o")] ∧
    lookupFS [((([] : Path)), Node.dir), (["release"], Node.dir),
        (["release", "old.txt"], Node.file "o")] ([] ++ ["beta"]) = none ∧
    (copy_beta_to_release [((([] : Path)), Node.dir), (["release"], Node.dir),
        (["release", "old.txt"], Node.file "o")] []).2 = false ∧
    lookupFS (copy_beta_to_release [((([] : Path)), Node.dir), (["release"], Node.dir),
        (["release", "old.txt"], Node.file "o")] []).1 ([] ++ ["release", "old.txt"]) = none :=
  ⟨by decide, by decide,
    (copy_beta_to_release_missing_beta
      [((([] : Path)), Node.dir), (["release"], Node.dir),
        (["release", "old.txt"], Node.file "o")] [] (by decide) (by decide)).1,
    (copy_beta_to_release_missing_beta
      [((([] : Path)), Node.dir), (["release"], Node.dir),
        (["release", "old.txt"], Node.file "o")] [] (by decide) (by decide)).2.2
      (["release", "old.txt"]) (by decide) (by decide)⟩

end PackFrameworker
